import Mathlib

/-!
Verification development for the snippet-manager protocol core
(`src/lib/protocol/utils.ts`): canonical record encoding, CIDv0/digest
helpers, and the `ProfileService` publish/lookup algorithms.

The service layer is embedded as pure functions over an explicit oracle
environment `EnvM` (content store, signer, clock, nonce source, registry)
together with a `Trace` that records the externally visible effects of a
run: content-store writes, signing calls, registry calls, the registry
pointer, and the chunks sealed by rotation.  External calls that can fail
are modelled as `Option`-returning oracle functions; a `none` aborts the
run with the corresponding `PubErr`, mirroring a thrown exception.
-/

/-! ## Service data model (from `types.ts` usage in `utils.ts`) -/

/-- Content addresses (CIDv0 strings in the source) are abstracted as `Nat`. -/
abbrev Cid := Nat

/-- Snippet payload documents are opaque to the protocol core. -/
abbrev Payload := Nat

/-- 65-byte wallet signatures, abstracted. -/
abbrev Sig := Nat

/-- `CustomDataLinkBase`: the unsigned record built in `addOrUpdateSnippet`
and `publishChanges`. -/
structure CustomDataLinkBase where
  name : String
  cid : Cid
  encrypted : Bool
  encryptionAlgorithm : Option String
  encryptionKeyFingerprint : Option String
  chainId : Nat
  signerAddress : String
  signedAt : Nat
  nonce : Nat
  deriving DecidableEq, Repr

/-- `CustomDataLink`: the signed record stored in chunks. -/
structure CustomDataLink extends CustomDataLinkBase where
  signature : Sig
  deriving DecidableEq, Repr

/-- `NamespaceChunk`: `{ prev, links }`. -/
structure NamespaceChunk where
  prev : Option Cid
  links : List CustomDataLink
  deriving DecidableEq, Repr

/-- JS objects used as string-keyed maps are modelled as ordered
association lists, matching JS property-insertion order. -/
abbrev Entries := List (String × Cid)

/-- `NamespaceIndex`: `{ head, entries }`. -/
structure NamespaceIndex where
  head : Option Cid
  entries : Entries
  deriving DecidableEq, Repr

/-- `Profile` (schema 1.2). -/
structure Profile where
  schemaVersion : String
  name : Option String
  description : Option String
  previewImageUrl : Option String
  imageUrl : Option String
  namespaces : List (String × Cid)
  signingKeys : List (String × Nat)
  deriving DecidableEq, Repr

/-- `ProfileState`: the loaded snapshot a publish runs against. -/
structure ProfileState where
  owner : String
  chainId : Nat
  profile : Profile
  index : NamespaceIndex
  head : NamespaceChunk
  namespaceKey : String
  profileCid : Option Cid
  indexCid : Option Cid
  headCid : Option Cid
  deriving DecidableEq, Repr

/-- Documents pinned by `ipfs.addJson` during a publish. -/
inductive Doc where
  | payload (p : Payload)
  | chunk (c : NamespaceChunk)
  | index (i : NamespaceIndex)
  | profile (p : Profile)
  deriving DecidableEq, Repr

/-- Errors a publish can abort with, tagged by the failing step. -/
inductive PubErr where
  | addFail
  | signFail
  | digestFail
  | regFail
  | fetchFail
  deriving DecidableEq, Repr

/-- The oracle environment: content store (`addDoc` is deterministic,
matching content addressing), signer, per-call clock and nonce source,
`cidV0ToDigest32` conversion, registry acceptance, and fetchers used by
the read path. -/
structure EnvM where
  addDoc : Doc → Option Cid
  signLink : CustomDataLinkBase → Option Sig
  timeAt : Nat → Nat
  nonceAt : Nat → Nat
  toDigest : Cid → Option Nat
  regOk : Nat → Bool
  fetchChunk : Cid → Option NamespaceChunk
  fetchPayload : Cid → Option Payload

/-- Bookkeeping of externally visible effects of one run. -/
structure Trace where
  writes : Nat
  signs : Nat
  regCalls : Nat
  ptr : Nat
  sealed : List (NamespaceChunk × Cid)
  deriving DecidableEq, Repr

/-! ## Association-list operations (JS object semantics) -/

/-- `obj[k]` lookup. -/
def alGet : List (String × Cid) → String → Option Cid
  | [], _ => none
  | kv :: rest, k => if kv.1 == k then some kv.2 else alGet rest k

/-- `obj[k] = v`: replace in place if the key exists, else append. -/
def alSet : List (String × Cid) → String → Cid → List (String × Cid)
  | [], k, v => [(k, v)]
  | kv :: rest, k, v => if kv.1 == k then (k, v) :: rest else kv :: alSet rest k v

/-- `delete obj[k]`. -/
def alDel (m : List (String × Cid)) (k : String) : List (String × Cid) :=
  m.filter (fun kv => !(kv.1 == k))

/-- `head.links.findIndex(l => l.name === name)` followed by replace-or-push. -/
def setLink : List CustomDataLink → CustomDataLink → List CustomDataLink
  | [], l => [l]
  | x :: xs, l => if x.name == l.name then l :: xs else x :: setLink xs l

/-- `links.find(l => l.name === name)`. -/
def findLink (links : List CustomDataLink) (n : String) : Option CustomDataLink :=
  links.find? (fun l => l.name == n)

/-! ## The service operations -/

/-- The unsigned link built for the `k`-th upsert of a run. -/
def mkLinkBase (chainId : Nat) (owner : String) (env : EnvM) (k : Nat)
    (n : String) (payloadCid : Cid) : CustomDataLinkBase :=
  { name := n, cid := payloadCid, encrypted := false, encryptionAlgorithm := none,
    encryptionKeyFingerprint := none, chainId := chainId, signerAddress := owner,
    signedAt := env.timeAt k, nonce := env.nonceAt k }

/-- Rotation: `if (head.links.length === 100) { pin head; repoint entries;
fresh head with prev = closedCid }`. -/
def rotateIfFull (env : EnvM) (head : NamespaceChunk) (entries : Entries) (t : Trace) :
    (Except PubErr (NamespaceChunk × Entries)) × Trace :=
  if head.links.length == 100 then
    let t1 : Trace := { t with writes := t.writes + 1 }
    match env.addDoc (.chunk head) with
    | none => (.error .addFail, t1)
    | some closedCid =>
      let entries1 := head.links.foldl (fun m l => alSet m l.name closedCid) entries
      (.ok ({ prev := some closedCid, links := [] }, entries1),
       { t1 with sealed := t1.sealed ++ [(head, closedCid)] })
  else (.ok (head, entries), t)

/-- The upsert loop of `publishChanges`: pin payload, build and sign the
link, rotate if the head is full, then insert into the head. -/
def applyUpserts (env : EnvM) (chainId : Nat) (owner : String) :
    List (String × Payload) → Nat → NamespaceChunk → Entries → Trace →
    (Except PubErr (NamespaceChunk × Entries)) × Trace
  | [], _, head, entries, t => (.ok (head, entries), t)
  | (n, p) :: rest, k, head, entries, t =>
    let t1 : Trace := { t with writes := t.writes + 1 }
    match env.addDoc (.payload p) with
    | none => (.error .addFail, t1)
    | some payloadCid =>
      let base := mkLinkBase chainId owner env k n payloadCid
      let t2 : Trace := { t1 with signs := t1.signs + 1 }
      match env.signLink base with
      | none => (.error .signFail, t2)
      | some sig =>
        let link : CustomDataLink := { toCustomDataLinkBase := base, signature := sig }
        match rotateIfFull env head entries t2 with
        | (.error e, t3) => (.error e, t3)
        | (.ok (h1, e1), t3) =>
          applyUpserts env chainId owner rest (k + 1)
            { h1 with links := setLink h1.links link } e1 t3

/-- The commit tail shared verbatim by `publishChanges`, `addOrUpdateSnippet`
and `deleteSnippet`: pin head, repoint entries for every name in the head,
pin index, rewrite `profile.namespaces`, pin profile, convert to digest,
update the registry (the sole pointer mutation, strictly last). -/
def commitState (env : EnvM) (state : ProfileState) (head1 : NamespaceChunk)
    (entries1 : Entries) (t : Trace) : (Except PubErr ProfileState) × Trace :=
  let t2 : Trace := { t with writes := t.writes + 1 }
  match env.addDoc (.chunk head1) with
  | none => (.error .addFail, t2)
  | some headCid =>
    let entries2 := head1.links.foldl (fun m l => alSet m l.name headCid) entries1
    let index2 : NamespaceIndex := { head := some headCid, entries := entries2 }
    let t3 : Trace := { t2 with writes := t2.writes + 1 }
    match env.addDoc (.index index2) with
    | none => (.error .addFail, t3)
    | some indexCid =>
      let profile2 : Profile :=
        { state.profile with
          namespaces := alSet state.profile.namespaces state.namespaceKey indexCid }
      let t4 : Trace := { t3 with writes := t3.writes + 1 }
      match env.addDoc (.profile profile2) with
      | none => (.error .addFail, t4)
      | some profileCid =>
        match env.toDigest profileCid with
        | none => (.error .digestFail, t4)
        | some dg =>
          let t5 : Trace :=
            { t4 with
              regCalls := t4.regCalls + 1,
              ptr := if env.regOk dg then dg else t4.ptr }
          if env.regOk dg then
            (.ok { state with
                   head := head1, index := index2, profile := profile2,
                   headCid := some headCid, indexCid := some indexCid,
                   profileCid := some profileCid }, t5)
          else (.error .regFail, t5)

/-- A batch of changes: `{ upserts, deletes }`. -/
structure Changes where
  upserts : List (String × Payload)
  deletes : List String
  deriving DecidableEq, Repr

/-- `ProfileService.publishChanges`: no-op fast path, deletes first,
then the upsert loop, then the commit tail. -/
def publishChangesE (env : EnvM) (state : ProfileState) (changes : Changes)
    (t0 : Trace) : (Except PubErr ProfileState) × Trace :=
  if changes.upserts.length == 0 && changes.deletes.length == 0 then (.ok state, t0)
  else
    let links0 := state.head.links.filter (fun l => !(changes.deletes.contains l.name))
    let entries0 := changes.deletes.foldl (fun m n => alDel m n) state.index.entries
    match applyUpserts env state.chainId state.owner changes.upserts 0
        { prev := state.head.prev, links := links0 } entries0 t0 with
    | (.error e, t) => (.error e, t)
    | (.ok (head1, entries1), t1) => commitState env state head1 entries1 t1

/-- `ProfileService.addOrUpdateSnippet`: a single upsert with the same
pin/sign/rotate/insert/commit steps. -/
def addOrUpdateSnippetE (env : EnvM) (state : ProfileState) (n : String)
    (p : Payload) (t0 : Trace) : (Except PubErr ProfileState) × Trace :=
  let t1 : Trace := { t0 with writes := t0.writes + 1 }
  match env.addDoc (.payload p) with
  | none => (.error .addFail, t1)
  | some payloadCid =>
    let base := mkLinkBase state.chainId state.owner env 0 n payloadCid
    let t2 : Trace := { t1 with signs := t1.signs + 1 }
    match env.signLink base with
    | none => (.error .signFail, t2)
    | some sig =>
      let link : CustomDataLink := { toCustomDataLinkBase := base, signature := sig }
      match rotateIfFull env state.head state.index.entries t2 with
      | (.error e, t3) => (.error e, t3)
      | (.ok (h1, e1), t3) =>
        commitState env state { h1 with links := setLink h1.links link } e1 t3

/-- `ProfileService.deleteSnippet`: drop the record from the head, erase its
index entry, then the commit tail. -/
def deleteSnippetE (env : EnvM) (state : ProfileState) (n : String) (t0 : Trace) :
    (Except PubErr ProfileState) × Trace :=
  commitState env state
    { state.head with links := state.head.links.filter (fun l => !(l.name == n)) }
    (alDel state.index.entries n) t0

/-- `ProfileService.getLinkForName`: head first, then the index entry and a
chunk fetch. -/
def getLinkForNameE (env : EnvM) (state : ProfileState) (n : String) :
    Except PubErr (Option CustomDataLink × Option Cid) :=
  match findLink state.head.links n with
  | some l => .ok (some l, state.headCid)
  | none =>
    match alGet state.index.entries n with
    | none => .ok (none, none)
    | some chunkCid =>
      match env.fetchChunk chunkCid with
      | none => .error .fetchFail
      | some chunk => .ok (findLink chunk.links n, some chunkCid)

/-- `ProfileService.getSnippetPayload`: resolve the link (head first, then
index), reject a resolved link whose `chainId` differs from the snapshot's,
else fetch the payload. -/
def getSnippetPayloadE (env : EnvM) (state : ProfileState) (n : String) :
    Except PubErr (Option Payload) :=
  let resolved : Except PubErr (Option CustomDataLink) :=
    match findLink state.head.links n with
    | some l => .ok (some l)
    | none =>
      match alGet state.index.entries n with
      | none => .ok none
      | some chunkCid =>
        match env.fetchChunk chunkCid with
        | none => .error .fetchFail
        | some chunk => .ok (findLink chunk.links n)
  match resolved with
  | .error e => .error e
  | .ok none => .ok none
  | .ok (some l) =>
    if !(l.chainId == state.chainId) then .ok none
    else
      match env.fetchPayload l.cid with
      | none => .error .fetchFail
      | some p => .ok (some p)

/-! ## Result predicates -/

/-- A property of the successful outcome of a run; failing runs satisfy it
vacuously. -/
def onOk (r : (Except PubErr ProfileState) × Trace)
    (P : ProfileState → Trace → Prop) : Prop :=
  match r with
  | (.ok s, t) => P s t
  | (.error _, _) => True

/-- The run succeeded and the successful outcome satisfies `P`. -/
def okWith (r : (Except PubErr ProfileState) × Trace)
    (P : ProfileState → Trace → Prop) : Prop :=
  match r with
  | (.ok s, t) => P s t
  | (.error _, _) => False

instance onOkDecidable (r : (Except PubErr ProfileState) × Trace)
    (P : ProfileState → Trace → Prop) [inst : ∀ s t, Decidable (P s t)] :
    Decidable (onOk r P) :=
  match r with
  | (.ok s, t) => inst s t
  | (.error _, _) => isTrue True.intro

instance okWithDecidable (r : (Except PubErr ProfileState) × Trace)
    (P : ProfileState → Trace → Prop) [inst : ∀ s t, Decidable (P s t)] :
    Decidable (okWith r P) :=
  match r with
  | (.ok s, t) => inst s t
  | (.error _, _) => isFalse (fun h => h)


deriving instance DecidableEq for Except

/-! ## Concrete fixtures used by witnesses and counterexamples -/

/-- An environment in which every external call succeeds. -/
def envAllOk : EnvM :=
  { addDoc := fun _ => some 1, signLink := fun _ => some 2, timeAt := fun _ => 3,
    nonceAt := fun _ => 4, toDigest := fun c => some c, regOk := fun _ => true,
    fetchChunk := fun _ => none, fetchPayload := fun _ => none }

/-- An environment whose content store rejects every write. -/
def envAddFails : EnvM := { envAllOk with addDoc := fun _ => none }

/-- A minimal snapshot with an empty head and empty index. -/
def stateEmpty : ProfileState :=
  { owner := "o", chainId := 1,
    profile := { schemaVersion := "1.2", name := none, description := none,
                 previewImageUrl := none, imageUrl := none, namespaces := [],
                 signingKeys := [] },
    index := { head := none, entries := [] },
    head := { prev := none, links := [] },
    namespaceKey := "k", profileCid := none, indexCid := none, headCid := none }

/-- The zero trace a fresh run starts from. -/
def traceZero : Trace := { writes := 0, signs := 0, regCalls := 0, ptr := 0, sealed := [] }

/-- A signed record whose `chainId` (2) differs from the snapshot chain (1). -/
def linkWrongChain : CustomDataLink :=
  { name := "a", cid := 0, encrypted := false, encryptionAlgorithm := none,
    encryptionKeyFingerprint := none, chainId := 2, signerAddress := "o",
    signedAt := 0, nonce := 0, signature := 0 }

/-- A snapshot holding only `linkWrongChain` in its head. -/
def stateWrongChain : ProfileState :=
  { stateEmpty with head := { prev := none, links := [linkWrongChain] } }

/-- Distinct single-character names used for bulk fixtures. -/
def cname (i : Nat) : String := String.mk [Char.ofNat (100 + i)]

/-- 100 distinct upserts (names `cname 0` .. `cname 99`). -/
def upsHundred : List (String × Payload) := (List.range 100).map (fun i => (cname i, i))

/-- The 101st distinct upsert. -/
def upLast : String × Payload := (cname 100, 100)

/-- A canonical signed record named `cname i`. -/
def mkLink100 (i : Nat) : CustomDataLink :=
  { name := cname i, cid := 0, encrypted := false, encryptionAlgorithm := none,
    encryptionKeyFingerprint := none, chainId := 1, signerAddress := "o",
    signedAt := 0, nonce := 0, signature := 0 }

/-- A head chunk at capacity: 100 records named `cname 0` .. `cname 99`. -/
def headFull : NamespaceChunk := { prev := none, links := (List.range 100).map mkLink100 }

/-- A snapshot whose head is at capacity and whose index entries all point at
the pinned head (content address 110). -/
def stateFull : ProfileState :=
  { stateEmpty with
    head := headFull,
    headCid := some 110,
    index := { head := some 110, entries := (List.range 100).map (fun i => (cname i, 110)) } }

/-- A batch that deletes one resident name and then upserts two fresh names,
forcing a rotation whose sealed chunk differs from the previously pinned head. -/
def changesRot : Changes := { upserts := [(cname 150, 7), (cname 151, 8)], deletes := [cname 0] }

/-- A snapshot whose head holds a record but whose index lacks its entry. -/
def stateInconsistent : ProfileState :=
  { stateEmpty with head := { prev := none, links := [mkLink100 0] }, headCid := some 5 }

/-! ## Canonical record encoding (`canonicalizeLink`, `keccakCanonicalLink`)

`canonicalizeLink` operates on the link as a JSON document: it drops the
top-level `signature` property, recursively sorts object keys, serializes
to JSON text and encodes the text as UTF-8 bytes.  JSON documents are
embedded as `JVal`; JS objects carry their properties as ordered
association lists with distinct keys. -/

inductive JVal where
  | null
  | bool (b : Bool)
  | num (n : Int)
  | str (s : String)
  | arr (xs : List JVal)
  | obj (kvs : List (String × JVal))

/-- `obj[k]` on a JSON object. -/
def alGetJ : List (String × JVal) → String → Option JVal
  | [], _ => none
  | kv :: rest, k => if kv.1 == k then some kv.2 else alGetJ rest k

/-- Key order used by `Object.keys(obj).sort()`. -/
def keyLe (a b : String × JVal) : Prop := a.1 ≤ b.1

instance keyLeDecidable : DecidableRel keyLe :=
  fun a b => inferInstanceAs (Decidable (a.1 ≤ b.1))

instance keyLeTotal : IsTotal (String × JVal) keyLe := ⟨fun a b => le_total a.1 b.1⟩

instance keyLeTrans : IsTrans (String × JVal) keyLe := ⟨fun _ _ _ hab hbc => le_trans hab hbc⟩

mutual
/-- `sortKeys`: recursively sort object keys lexicographically at every
nesting level (arrays map, atoms unchanged).  Since a JS object has
distinct keys, sorting `Object.keys` and rebuilding by lookup is the same
as sorting the property list by key. -/
def sortKeys : JVal → JVal
  | .null => .null
  | .bool b => .bool b
  | .num n => .num n
  | .str s => .str s
  | .arr xs => .arr (sortKeysList xs)
  | .obj kvs => .obj (List.insertionSort keyLe (sortKeysPairs kvs))

def sortKeysList : List JVal → List JVal
  | [] => []
  | x :: xs => sortKeys x :: sortKeysList xs

def sortKeysPairs : List (String × JVal) → List (String × JVal)
  | [] => []
  | kv :: rest => (kv.1, sortKeys kv.2) :: sortKeysPairs rest
end

/-- `delete withoutSig.signature`: drop the top-level signature property. -/
def delSignature : JVal → JVal
  | .obj kvs => .obj (kvs.filter (fun kv => !(kv.1 == "signature")))
  | v => v

/-- Lower-case hex digit. -/
def hexDigitChar (n : Nat) : Char :=
  if n < 10 then Char.ofNat (48 + n) else Char.ofNat (87 + n)

/-- JSON string escaping (quote, backslash, control characters). -/
def escapeChar (c : Char) : List Char :=
  if c = '"' ∨ c = '\\' then ['\\', c]
  else if c.toNat < 32 then
    ['\\', 'u', '0', '0', hexDigitChar (c.toNat / 16), hexDigitChar (c.toNat % 16)]
  else [c]

/-- A JSON string literal. -/
def quoteString (s : String) : String :=
  String.mk ('"' :: s.data.foldr (fun c acc => escapeChar c ++ acc) ['"'])

mutual
/-- `JSON.stringify` on the embedded documents. -/
def jsonStringify : JVal → String
  | .null => "null"
  | .bool true => "true"
  | .bool false => "false"
  | .num n => toString n
  | .str s => quoteString s
  | .arr xs => "[" ++ jsonStringifyList xs ++ "]"
  | .obj kvs => "\x7b" ++ jsonStringifyPairs kvs ++ "\x7d"

def jsonStringifyList : List JVal → String
  | [] => ""
  | [x] => jsonStringify x
  | x :: xs => jsonStringify x ++ "," ++ jsonStringifyList xs

def jsonStringifyPairs : List (String × JVal) → String
  | [] => ""
  | [kv] => quoteString kv.1 ++ ":" ++ jsonStringify kv.2
  | kv :: rest => quoteString kv.1 ++ ":" ++ jsonStringify kv.2 ++ "," ++ jsonStringifyPairs rest
end

/-- `canonicalizeLink`: JSON without signature, sorted keys, UTF-8 bytes. -/
def canonicalizeLink (link : JVal) : List UInt8 :=
  (jsonStringify (sortKeys (delSignature link))).toUTF8.toList

/-- `keccakCanonicalLink`: hash of the canonical bytes.  The keccak-256
implementation lives in the external `ethers` library and is abstracted as
a parameter. -/
def keccakCanonicalLink (keccak : List UInt8 → String) (link : JVal) : String :=
  keccak (canonicalizeLink link)

/-- Two JSON documents that are equal as key-value maps at every nesting
level: atoms equal, arrays pointwise, objects with well-formed (distinct)
keys defining the same partial map, values related recursively. -/
inductive MapEq : JVal → JVal → Prop where
  | null : MapEq .null .null
  | bool (b : Bool) : MapEq (.bool b) (.bool b)
  | num (n : Int) : MapEq (.num n) (.num n)
  | str (s : String) : MapEq (.str s) (.str s)
  | arrNil : MapEq (.arr []) (.arr [])
  | arrCons {x y : JVal} {xs ys : List JVal} :
      MapEq x y → MapEq (.arr xs) (.arr ys) → MapEq (.arr (x :: xs)) (.arr (y :: ys))
  | obj {kvs1 kvs2 : List (String × JVal)} :
      (kvs1.map Prod.fst).Nodup → (kvs2.map Prod.fst).Nodup →
      (∀ k, alGetJ kvs1 k = none ↔ alGetJ kvs2 k = none) →
      (∀ k v1 v2, alGetJ kvs1 k = some v1 → alGetJ kvs2 k = some v2 → MapEq v1 v2) →
      MapEq (.obj kvs1) (.obj kvs2)

/-! ## CIDv0 / digest32 helpers (`cidV0ToDigest32`, `digest32ToCidV0`)

CIDv0 strings are base58btc encodings (no multibase prefix) of a 34-byte
sha2-256 multihash `0x12 0x20 || digest[32]`.  The external `multiformats`
base58btc codec is modelled by `baseEncode`/`baseDecode` below: the byte
string is read as a big-endian number, converted to base-58 digits, and
leading zero bytes map to leading `'1'` characters (and conversely). -/

/-- The base58btc alphabet. -/
def B58ALPHA : List Char :=
  "123456789ABCDEFGHJKLMNPQRSTUVWXYZabcdefghijkmnopqrstuvwxyz".data

/-- Character of a base58 digit. -/
def b58Char (d : Nat) : Char := B58ALPHA.getD d '1'

/-- Digit value of a base58 character, `none` for a character outside the
alphabet (the codec throws on such input). -/
def b58Digit (c : Char) : Option Nat := B58ALPHA.findIdx? (fun x => x == c)

/-- Little-endian base-`b` digits of `n`, with explicit fuel (the fuel
`n` itself always suffices). -/
def natDigitsLE (b : Nat) : Nat → Nat → List Nat
  | 0, _ => []
  | _ + 1, 0 => []
  | f + 1, n => n % b :: natDigitsLE b f (n / b)

/-- Little-endian base-`b` digits of `n` (empty for 0). -/
def digitsLE (b n : Nat) : List Nat := natDigitsLE b n n

/-- Value of little-endian digits. -/
def parseLE (b : Nat) (ds : List Nat) : Nat := ds.foldr (fun d a => d + b * a) 0

/-- Value of big-endian digits (how the codecs accumulate). -/
def parseBE (b : Nat) (ds : List Nat) : Nat := ds.foldl (fun a d => a * b + d) 0

/-- Leading zero bytes of the input (they become `'1'` characters). -/
def countLeadingZeros : List Nat → Nat
  | 0 :: rest => countLeadingZeros rest + 1
  | _ => 0

/-- Leading `'1'` characters of the input (they become zero bytes). -/
def countLeadingOnes : List Char → Nat
  | '1' :: rest => countLeadingOnes rest + 1
  | _ => 0

/-- base58btc `baseEncode` on bytes. -/
def baseEncode (bs : List Nat) : String :=
  String.mk (List.replicate (countLeadingZeros bs) '1' ++
    ((digitsLE 58 (parseBE 256 bs)).reverse.map b58Char))

/-- base58btc `baseDecode` on a string; `none` models the throw on an
invalid character. -/
def baseDecode (s : String) : Option (List Nat) :=
  if s.data.all (fun c => (b58Digit c).isSome) then
    some (List.replicate (countLeadingOnes s.data) 0 ++
      (digitsLE 256 (s.data.foldl (fun a c => a * 58 + (b58Digit c).getD 0) 0)).reverse)
  else none

/-- `isCidV0`: length 46 and prefix "Qm". -/
def isCidV0 (s : String) : Bool :=
  s.length == 46 &&
    (match s.data with
     | 'Q' :: 'm' :: _ => true
     | _ => false)

/-- Value of a lower-case hex character (0 outside `[0-9a-f]`). -/
def hexVal (c : Char) : Nat :=
  if 48 ≤ c.toNat ∧ c.toNat ≤ 57 then c.toNat - 48
  else if 97 ≤ c.toNat ∧ c.toNat ≤ 102 then c.toNat - 87
  else 0

/-- A lower-case hex character as in the source regexes. -/
def isHexLower (c : Char) : Bool :=
  decide ((48 ≤ c.toNat ∧ c.toNat ≤ 57) ∨ (97 ≤ c.toNat ∧ c.toNat ≤ 102))

/-- The regex `^0x[0-9a-f]{64}$` of `digest32ToCidV0`. -/
def isHexDigest (s : String) : Bool :=
  match s.data with
  | '0' :: 'x' :: rest => rest.length == 64 && rest.all isHexLower
  | _ => false

/-- `parseInt(s.slice(2+2i, 4+2i), 16)` over all pairs. -/
def hexPairsToBytes : List Char → List Nat
  | c1 :: c2 :: rest => (hexVal c1 * 16 + hexVal c2) :: hexPairsToBytes rest
  | _ => []

/-- `b.toString(16).padStart(2, '0')`. -/
def byteToHexChars (x : Nat) : List Char := [hexDigitChar (x / 16), hexDigitChar (x % 16)]

/-- Hex rendering of a byte string. -/
def bytesToHex (bs : List Nat) : List Char :=
  bs.foldr (fun x acc => byteToHexChars x ++ acc) []

/-- `cidV0ToDigest32`: validate the CIDv0 shape, base58-decode, check the
multihash layout `0x12 0x20 || digest[32]`, and hex-render the digest. -/
def cidV0ToDigest32 (cid : String) : Except String String :=
  if !(isCidV0 cid) then .error "Not CIDv0"
  else
    match baseDecode cid with
    | none => .error "Invalid base58 character"
    | some bytes =>
      if bytes.headD 0 == 0x12 && (bytes.drop 1).headD 0 == 0x20 && bytes.length == 34 then
        .ok (String.mk ('0' :: 'x' :: bytesToHex (bytes.drop 2)))
      else .error "Unexpected multihash layout"

/-- `digest32ToCidV0`: validate the digest shape and base58-encode the
34-byte multihash `0x12 0x20 || digest`. -/
def digest32ToCidV0 (digest32 : String) : Except String String :=
  if !(isHexDigest digest32) then .error "Invalid digest32"
  else .ok (baseEncode (0x12 :: 0x20 :: hexPairsToBytes (digest32.data.drop 2)))

/-- A well-formed CIDv0 with the expected multihash layout: exactly the
inputs `cidV0ToDigest32` accepts. -/
def wellFormedCidV0 (s : String) : Bool :=
  isCidV0 s &&
    (match baseDecode s with
     | none => false
     | some bytes =>
       bytes.headD 0 == 0x12 && (bytes.drop 1).headD 0 == 0x20 && bytes.length == 34)

/-- A concrete valid digest string: "0x" followed by 64 hex characters. -/
def cDigest : String := String.mk ('0' :: 'x' :: List.replicate 64 'a')

/-! ## Basic lemmas about the association-list operations -/

theorem alGet_alSet (m : List (String × Cid)) (k k' : String) (v : Cid) :
    alGet (alSet m k v) k' = if k = k' then some v else alGet m k' := by
  induction m with
  | nil =>
    by_cases hkk : k = k' <;> simp [alGet, alSet, hkk]
  | cons kv rest ih =>
    by_cases h : kv.1 = k
    · have hb : (kv.1 == k) = true := by simp [h]
      by_cases hkk : k = k'
      · subst hkk; simp [alSet, alGet, h]
      · have : (kv.1 == k') = false := by
          simp only [beq_eq_false_iff_ne]; rw [h]; exact hkk
        have hk' : (k == k') = false := by simp [hkk]
        simp [alSet, alGet, hb, hk', this, hkk]
    · have hb : (kv.1 == k) = false := by simp [h]
      by_cases h' : kv.1 = k'
      · have hb' : (kv.1 == k') = true := by simp [h']
        have hkk : ¬ k = k' := fun e => h (e ▸ h')
        simp [alSet, alGet, hb, hb', hkk]
      · have hb' : (kv.1 == k') = false := by simp [h']
        simp [alSet, alGet, hb, hb', ih]

theorem alGet_alDel (m : List (String × Cid)) (k k' : String) :
    alGet (alDel m k) k' = if k = k' then none else alGet m k' := by
  simp only [alDel]
  induction m with
  | nil => by_cases hkk : k = k' <;> simp [alGet, hkk]
  | cons kv rest ih =>
    by_cases h : kv.1 = k
    · have hb : (kv.1 == k) = true := by simp [h]
      by_cases hkk : k = k'
      · subst hkk
        simpa [List.filter_cons, hb] using ih
      · have hb' : (kv.1 == k') = false := by
          simp only [beq_eq_false_iff_ne]; rw [h]; exact hkk
        simp only [if_neg hkk] at ih
        simp [List.filter_cons, hb, ih, hkk, alGet, hb']
    · have hb : (kv.1 == k) = false := by simp [h]
      by_cases h' : kv.1 = k'
      · have hb' : (kv.1 == k') = true := by simp [h']
        have hkk : ¬ k = k' := fun e => h (e ▸ h')
        simp [List.filter_cons, alGet, hb, hb', hkk]
      · have hb' : (kv.1 == k') = false := by simp [h']
        simp [List.filter_cons, alGet, hb, hb', ih]

theorem alGet_foldl_alDel (ds : List String) (m : List (String × Cid)) (k : String) :
    alGet (ds.foldl (fun acc n => alDel acc n) m) k =
      if k ∈ ds then none else alGet m k := by
  induction ds generalizing m with
  | nil => simp
  | cons d rest ih =>
    by_cases h : d = k
    · simp [List.foldl_cons, ih, alGet_alDel, h]
    · have : ¬ k = d := fun e => h e.symm
      simp [List.foldl_cons, ih, alGet_alDel, h, this]

theorem alGet_foldl_alSet (links : List CustomDataLink) (c : Cid)
    (m : List (String × Cid)) (k : String) :
    alGet (links.foldl (fun acc l => alSet acc l.name c) m) k =
      if k ∈ links.map (fun l => l.name) then some c else alGet m k := by
  induction links generalizing m with
  | nil => simp
  | cons l rest ih =>
    by_cases hrest : k ∈ rest.map (fun l => l.name)
    · simp [List.foldl_cons, ih, hrest]
    · by_cases h : l.name = k
      · simp [List.foldl_cons, ih, hrest, alGet_alSet, h]
      · have : ¬ k = l.name := fun e => h e.symm
        simp [List.foldl_cons, ih, hrest, alGet_alSet, h, this]

theorem findLink_eq_none_iff (links : List CustomDataLink) (n : String) :
    findLink links n = none ↔ ∀ l ∈ links, l.name ≠ n := by
  simp [findLink, List.find?_eq_none]

theorem setLink_length_le (ls : List CustomDataLink) (l : CustomDataLink) :
    (setLink ls l).length ≤ ls.length + 1 := by
  induction ls with
  | nil => simp [setLink]
  | cons x xs ih =>
    by_cases h : x.name = l.name
    · have hb : (x.name == l.name) = true := by simp [h]
      simp [setLink, hb]
    · have hb : (x.name == l.name) = false := by simp [h]
      simp only [setLink, hb, Bool.false_eq_true, if_false, List.length_cons]
      exact Nat.succ_le_succ ih

theorem setLink_of_not_mem (ls : List CustomDataLink) (l : CustomDataLink)
    (h : ∀ x ∈ ls, x.name ≠ l.name) : setLink ls l = ls ++ [l] := by
  induction ls with
  | nil => rfl
  | cons x xs ih =>
    have hb : (x.name == l.name) = false := by
      simp only [beq_eq_false_iff_ne]; exact h x (by simp)
    simp only [setLink, hb, Bool.false_eq_true, if_false, List.cons_append,
      List.cons.injEq, true_and]
    exact ih (fun y hy => h y (by simp [hy]))

/-! ## Registry calls happen only in the final commit step -/

theorem rotateIfFull_trace (env : EnvM) (head : NamespaceChunk) (entries : Entries)
    (t : Trace) :
    (rotateIfFull env head entries t).2.regCalls = t.regCalls ∧
    (rotateIfFull env head entries t).2.ptr = t.ptr := by
  unfold rotateIfFull
  split
  · cases h : env.addDoc (.chunk head) <;> simp
  · simp

theorem applyUpserts_reg (env : EnvM) (chainId : Nat) (owner : String)
    (ups : List (String × Payload)) (k : Nat) (head : NamespaceChunk)
    (entries : Entries) (t : Trace) :
    (applyUpserts env chainId owner ups k head entries t).2.regCalls = t.regCalls ∧
    (applyUpserts env chainId owner ups k head entries t).2.ptr = t.ptr := by
  induction ups generalizing k head entries t with
  | nil => simp [applyUpserts]
  | cons u rest ih =>
    obtain ⟨n, p⟩ := u
    unfold applyUpserts
    cases h1 : env.addDoc (.payload p) with
    | none => simp
    | some payloadCid =>
      simp only []
      cases h2 : env.signLink (mkLinkBase chainId owner env k n payloadCid) with
      | none => simp
      | some sig =>
        simp only []
        have hrot := rotateIfFull_trace env head entries
          { t with writes := t.writes + 1, signs := t.signs + 1 }
        cases h3 : rotateIfFull env head entries
            { t with writes := t.writes + 1, signs := t.signs + 1 } with
        | mk r t3 =>
          rw [h3] at hrot
          cases r with
          | error e => simpa using hrot
          | ok he =>
            obtain ⟨h1', e1⟩ := he
            obtain ⟨hr1, hr2⟩ := hrot
            constructor
            · rw [(ih (k + 1) _ e1 t3).1]; simpa using hr1
            · rw [(ih (k + 1) _ e1 t3).2]; simpa using hr2

theorem commitState_reg (env : EnvM) (state : ProfileState) (head1 : NamespaceChunk)
    (entries1 : Entries) (t : Trace) (e : PubErr)
    (herr : (commitState env state head1 entries1 t).1 = .error e)
    (hne : e ≠ .regFail) :
    (commitState env state head1 entries1 t).2.regCalls = t.regCalls ∧
    (commitState env state head1 entries1 t).2.ptr = t.ptr := by
  unfold commitState at herr ⊢
  dsimp only at herr ⊢
  cases h1 : env.addDoc (.chunk head1) with
  | none => simp [h1]
  | some headCid =>
    rw [h1] at herr
    dsimp only at herr ⊢
    cases h2 : env.addDoc (.index { head := some headCid, entries := List.foldl (fun m l => alSet m l.name headCid) entries1 head1.links }) with
    | none => simp [h2]
    | some indexCid =>
      rw [h2] at herr
      dsimp only at herr ⊢
      cases h3 : env.addDoc (.profile { state.profile with namespaces := alSet state.profile.namespaces state.namespaceKey indexCid }) with
      | none => simp [h3]
      | some profileCid =>
        rw [h3] at herr
        dsimp only at herr ⊢
        cases h4 : env.toDigest profileCid with
        | none => simp [h4]
        | some dg =>
          rw [h4] at herr
          dsimp only at herr ⊢
          cases h5 : env.regOk dg with
          | true => simp [h5] at herr
          | false =>
            simp [h5] at herr
            exact absurd herr.symm hne

/-- C4: publishing an empty batch `{upserts := [], deletes := []}` returns the
input snapshot unchanged (all addresses included) and leaves the trace - the
counts of content-store writes, signing calls and registry calls, and the
registry pointer - untouched: zero external calls are performed. -/
theorem C4_empty_publish_is_noop (env : EnvM) (state : ProfileState) (t0 : Trace) :
    publishChangesE env state { upserts := [], deletes := [] } t0 = (.ok state, t0) := rfl

/-- C3: if a publish fails at any step other than the registry update itself
(a content-store write, a signing call, or the digest conversion raised), then
no registry pointer-update call was made during the run and the registry
pointer is unchanged: the registry update is the last operation of
`publishChanges`. -/
theorem C3_registry_untouched_on_early_failure (env : EnvM) (state : ProfileState)
    (changes : Changes) (t0 : Trace) (e : PubErr)
    (herr : (publishChangesE env state changes t0).1 = .error e)
    (hne : e ≠ .regFail) :
    (publishChangesE env state changes t0).2.regCalls = t0.regCalls ∧
    (publishChangesE env state changes t0).2.ptr = t0.ptr := by
  unfold publishChangesE at herr ⊢
  split at herr
  · simp at herr
  · rename_i hcond
    rw [if_neg hcond]
    dsimp only at herr ⊢
    cases happ : applyUpserts env state.chainId state.owner changes.upserts 0 { prev := state.head.prev, links := List.filter (fun l => !changes.deletes.contains l.name) state.head.links } (List.foldl (fun m n => alDel m n) state.index.entries changes.deletes) t0 with
    | mk r t1 =>
      have hreg := applyUpserts_reg env state.chainId state.owner changes.upserts 0 { prev := state.head.prev, links := List.filter (fun l => !changes.deletes.contains l.name) state.head.links } (List.foldl (fun m n => alDel m n) state.index.entries changes.deletes) t0
      rw [happ] at hreg herr
      cases r with
      | error e' => simpa using hreg
      | ok pr =>
        obtain ⟨head1, entries1⟩ := pr
        dsimp only at herr ⊢
        have := commitState_reg env state head1 entries1 t1 e herr hne
        simp only [] at hreg
        omega

/-! ## Characterizations of the successful paths -/

theorem rotateIfFull_ok (env : EnvM) (head : NamespaceChunk) (entries : Entries)
    (t : Trace) (h1 : NamespaceChunk) (e1 : Entries) (t' : Trace)
    (h : rotateIfFull env head entries t = (.ok (h1, e1), t')) :
    (head.links.length = 100 ∧ ∃ c, env.addDoc (.chunk head) = some c ∧
       h1 = { prev := some c, links := [] } ∧
       e1 = List.foldl (fun m l => alSet m l.name c) entries head.links ∧
       t'.sealed = t.sealed ++ [(head, c)] ∧ t'.regCalls = t.regCalls ∧ t'.ptr = t.ptr) ∨
    (¬ head.links.length = 100 ∧ h1 = head ∧ e1 = entries ∧ t' = t) := by
  unfold rotateIfFull at h
  split at h
  · rename_i hlen
    cases hc : env.addDoc (.chunk head) with
    | none => rw [hc] at h; simp at h
    | some c =>
      rw [hc] at h
      dsimp only at h
      left
      obtain ⟨h_pr, h_tr⟩ := Prod.mk.injEq .. ▸ h
      obtain ⟨hh, he⟩ := Prod.mk.injEq .. ▸ (Except.ok.inj h_pr)
      refine ⟨by simpa using hlen, c, rfl, hh.symm, he.symm, ?_, ?_, ?_⟩ <;> rw [← h_tr]
  · rename_i hlen
    right
    obtain ⟨h_pr, h_tr⟩ := Prod.mk.injEq .. ▸ h
    obtain ⟨hh, he⟩ := Prod.mk.injEq .. ▸ (Except.ok.inj h_pr)
    exact ⟨by simpa using hlen, hh.symm, he.symm, h_tr.symm⟩

theorem commitState_ok (env : EnvM) (state : ProfileState) (head1 : NamespaceChunk)
    (entries1 : Entries) (t : Trace) (s' : ProfileState) (t' : Trace)
    (h : commitState env state head1 entries1 t = (.ok s', t')) :
    s'.head = head1 ∧ t'.sealed = t.sealed ∧
    ∃ hc, env.addDoc (.chunk head1) = some hc ∧ s'.headCid = some hc ∧
      s'.index.entries = List.foldl (fun m l => alSet m l.name hc) entries1 head1.links ∧
      s'.index.head = some hc := by
  unfold commitState at h
  dsimp only at h
  cases h1 : env.addDoc (.chunk head1) with
  | none => rw [h1] at h; simp at h
  | some headCid =>
    rw [h1] at h
    dsimp only at h
    cases h2 : env.addDoc (.index { head := some headCid, entries := List.foldl (fun m l => alSet m l.name headCid) entries1 head1.links }) with
    | none => rw [h2] at h; simp at h
    | some indexCid =>
      rw [h2] at h
      dsimp only at h
      cases h3 : env.addDoc (.profile { state.profile with namespaces := alSet state.profile.namespaces state.namespaceKey indexCid }) with
      | none => rw [h3] at h; simp at h
      | some profileCid =>
        rw [h3] at h
        dsimp only at h
        cases h4 : env.toDigest profileCid with
        | none => rw [h4] at h; simp at h
        | some dg =>
          rw [h4] at h
          dsimp only at h
          cases h5 : env.regOk dg with
          | false => rw [h5] at h; simp at h
          | true =>
            rw [h5] at h
            simp only [if_true, Prod.mk.injEq, Except.ok.injEq] at h
            obtain ⟨hs, ht⟩ := h
            subst ht
            refine ⟨by rw [← hs], by simp, headCid, rfl, by rw [← hs], by rw [← hs], by rw [← hs]⟩

theorem applyUpserts_len (env : EnvM) (chainId : Nat) (owner : String)
    (ups : List (String × Payload)) :
    ∀ (k : Nat) (head : NamespaceChunk) (entries : Entries) (t : Trace)
      (h' : NamespaceChunk) (e' : Entries) (t' : Trace),
      head.links.length ≤ 100 →
      applyUpserts env chainId owner ups k head entries t = (.ok (h', e'), t') →
      h'.links.length ≤ 100 := by
  induction ups with
  | nil =>
    intro k head entries t h' e' t' hlen h
    unfold applyUpserts at h
    simp only [Prod.mk.injEq, Except.ok.injEq] at h
    obtain ⟨⟨hh, -⟩, -⟩ := h
    rw [← hh]; exact hlen
  | cons u rest ih =>
    intro k head entries t h' e' t' hlen h
    obtain ⟨n, p⟩ := u
    unfold applyUpserts at h
    dsimp only at h
    cases hc : env.addDoc (.payload p) with
    | none => rw [hc] at h; simp at h
    | some payloadCid =>
      rw [hc] at h
      dsimp only at h
      cases hs : env.signLink (mkLinkBase chainId owner env k n payloadCid) with
      | none => rw [hs] at h; simp at h
      | some sig =>
        rw [hs] at h
        dsimp only at h
        cases hrot : rotateIfFull env head entries { t with writes := t.writes + 1, signs := t.signs + 1 } with
        | mk r t3 =>
          rw [hrot] at h
          cases r with
          | error e0 => simp at h
          | ok pr =>
            obtain ⟨h1, e1⟩ := pr
            dsimp only at h
            have hlen1 : h1.links.length ≤ 99 := by
              rcases rotateIfFull_ok env head entries _ h1 e1 t3 hrot with
                ⟨-, c, -, hh1, -⟩ | ⟨hne, hh1, -⟩
              · rw [hh1]; simp
              · rw [hh1]; omega
            refine ih (k + 1) _ e1 t3 h' e' t' ?_ h
            calc (setLink h1.links _).length ≤ h1.links.length + 1 := setLink_length_le _ _
              _ ≤ 100 := by omega

theorem publishChangesE_ok (env : EnvM) (state : ProfileState) (changes : Changes)
    (t0 : Trace) (s' : ProfileState) (t' : Trace)
    (h : publishChangesE env state changes t0 = (.ok s', t')) :
    (changes.upserts = [] ∧ changes.deletes = [] ∧ s' = state ∧ t' = t0) ∨
    ∃ head1 entries1 t1,
      applyUpserts env state.chainId state.owner changes.upserts 0
        { prev := state.head.prev,
          links := state.head.links.filter (fun l => !(changes.deletes.contains l.name)) }
        (changes.deletes.foldl (fun m n => alDel m n) state.index.entries) t0
        = (.ok (head1, entries1), t1) ∧
      commitState env state head1 entries1 t1 = (.ok s', t') := by
  unfold publishChangesE at h
  split at h
  · rename_i hc
    left
    simp only [Bool.and_eq_true, beq_iff_eq, List.length_eq_zero] at hc
    simp only [Prod.mk.injEq, Except.ok.injEq] at h
    exact ⟨hc.1, hc.2, h.1.symm, h.2.symm⟩
  · right
    dsimp only at h
    cases happ : applyUpserts env state.chainId state.owner changes.upserts 0 { prev := state.head.prev, links := List.filter (fun l => !changes.deletes.contains l.name) state.head.links } (List.foldl (fun m n => alDel m n) state.index.entries changes.deletes) t0 with
    | mk r t1 =>
      rw [happ] at h
      cases r with
      | error e0 => simp at h
      | ok pr =>
        obtain ⟨head1, entries1⟩ := pr
        dsimp only at h
        exact ⟨head1, entries1, t1, rfl, h⟩

theorem addOrUpdateSnippetE_ok (env : EnvM) (state : ProfileState) (n : String)
    (p : Payload) (t0 : Trace) (s' : ProfileState) (t' : Trace)
    (h : addOrUpdateSnippetE env state n p t0 = (.ok s', t')) :
    ∃ payloadCid sig h1 e1 t3,
      env.addDoc (.payload p) = some payloadCid ∧
      rotateIfFull env state.head state.index.entries
        { t0 with writes := t0.writes + 1, signs := t0.signs + 1 } = (.ok (h1, e1), t3) ∧
      commitState env state { h1 with links := setLink h1.links (CustomDataLink.mk (mkLinkBase state.chainId state.owner env 0 n payloadCid) sig) } e1 t3 = (.ok s', t') := by
  unfold addOrUpdateSnippetE at h
  dsimp only at h
  cases hc : env.addDoc (.payload p) with
  | none => rw [hc] at h; simp at h
  | some payloadCid =>
    rw [hc] at h
    dsimp only at h
    cases hs : env.signLink (mkLinkBase state.chainId state.owner env 0 n payloadCid) with
    | none => rw [hs] at h; simp at h
    | some sig =>
      rw [hs] at h
      dsimp only at h
      cases hrot : rotateIfFull env state.head state.index.entries { t0 with writes := t0.writes + 1, signs := t0.signs + 1 } with
      | mk r t3 =>
        rw [hrot] at h
        cases r with
        | error e0 => simp at h
        | ok pr =>
          obtain ⟨h1, e1⟩ := pr
          dsimp only at h
          exact ⟨payloadCid, sig, h1, e1, t3, rfl, rfl, h⟩

/-- C9: the head never exceeds its capacity of 100 records: starting from a
snapshot whose head holds at most 100 records, every successful
`publishChanges` batch and every successful `addOrUpdateSnippet` call
returns a head holding at most 100 records, because a full head is sealed
and replaced before an upsert would grow it past capacity. -/
theorem C9_head_capacity_invariant (env : EnvM) (state : ProfileState)
    (changes : Changes) (t0 : Trace) (n : String) (p : Payload) (t1 : Trace)
    (hcap : state.head.links.length ≤ 100) :
    onOk (publishChangesE env state changes t0)
      (fun s' _ => s'.head.links.length ≤ 100) ∧
    onOk (addOrUpdateSnippetE env state n p t1)
      (fun s' _ => s'.head.links.length ≤ 100) := by
  constructor
  · unfold onOk
    cases hres : publishChangesE env state changes t0 with
    | mk r tr =>
      cases r with
      | error e => exact True.intro
      | ok s' =>
        show s'.head.links.length ≤ 100
        rcases publishChangesE_ok env state changes t0 s' tr hres with
          ⟨-, -, hs, -⟩ | ⟨head1, entries1, tmid, happ, hcommit⟩
        · rw [hs]; exact hcap
        · have hh := (commitState_ok env state head1 entries1 tmid s' tr hcommit).1
          rw [hh]
          refine applyUpserts_len env state.chainId state.owner changes.upserts 0 _ _ t0 head1 entries1 tmid ?_ happ
          simpa using Nat.le_trans (List.length_filter_le _ _) hcap
  · unfold onOk
    cases hres : addOrUpdateSnippetE env state n p t1 with
    | mk r tr =>
      cases r with
      | error e => exact True.intro
      | ok s' =>
        show s'.head.links.length ≤ 100
        obtain ⟨payloadCid, sig, h1, e1, t3, -, hrot, hcommit⟩ :=
          addOrUpdateSnippetE_ok env state n p t1 s' tr hres
        have hh := (commitState_ok env state _ e1 t3 s' tr hcommit).1
        rw [hh]
        have hlen1 : h1.links.length ≤ 99 := by
          rcases rotateIfFull_ok env state.head state.index.entries _ h1 e1 t3 hrot with
            ⟨-, c, -, hh1, -⟩ | ⟨hne, hh1, -⟩
          · rw [hh1]; simp
          · rw [hh1]; omega
        calc (setLink h1.links _).length ≤ h1.links.length + 1 := setLink_length_le _ _
          _ ≤ 100 := by omega

/-- Witness for C9 at a concrete snapshot, batch and environment. -/
theorem C9_head_capacity_invariant_witness :
    stateEmpty.head.links.length ≤ 100 ∧
    (onOk (publishChangesE envAllOk stateEmpty { upserts := [("a", 7)], deletes := [] } traceZero)
      (fun s' _ => s'.head.links.length ≤ 100) ∧
     onOk (addOrUpdateSnippetE envAllOk stateEmpty "b" 8 traceZero)
      (fun s' _ => s'.head.links.length ≤ 100)) :=
  ⟨by decide,
   C9_head_capacity_invariant envAllOk stateEmpty { upserts := [("a", 7)], deletes := [] }
     traceZero "b" 8 traceZero (by decide)⟩

/-- Witness for C3: with a content store that rejects the payload write, the
publish aborts with `addFail` and makes no registry call. -/
theorem C3_registry_untouched_on_early_failure_witness :
    (publishChangesE envAddFails stateEmpty { upserts := [("a", 5)], deletes := [] } traceZero).1
      = .error .addFail ∧
    (PubErr.addFail ≠ PubErr.regFail) ∧
    ((publishChangesE envAddFails stateEmpty { upserts := [("a", 5)], deletes := [] } traceZero).2.regCalls
        = traceZero.regCalls ∧
     (publishChangesE envAddFails stateEmpty { upserts := [("a", 5)], deletes := [] } traceZero).2.ptr
        = traceZero.ptr) :=
  ⟨by decide, by decide,
   C3_registry_untouched_on_early_failure envAddFails stateEmpty
     { upserts := [("a", 5)], deletes := [] } traceZero .addFail (by decide) (by decide)⟩

/-! ## C8: the domain check on the read path -/

/-- C8: if the record resolved for a name (from the head, or through the
index from a sealed chunk - the resolution performed by `getLinkForName`)
has a `chainId` different from the snapshot's current `chainId`, then
`getSnippetPayload` returns `null`: the record is treated as absent even
though it is otherwise structurally valid. -/
theorem C8_domain_mismatch_treated_as_absent (env : EnvM) (state : ProfileState)
    (n : String) (l : CustomDataLink) (oc : Option Cid)
    (hres : getLinkForNameE env state n = .ok (some l, oc))
    (hdom : l.chainId ≠ state.chainId) :
    getSnippetPayloadE env state n = .ok none := by
  have hb : (l.chainId == state.chainId) = false := by
    simp only [beq_eq_false_iff_ne, ne_eq]; exact hdom
  unfold getLinkForNameE at hres
  unfold getSnippetPayloadE
  cases hf : findLink state.head.links n with
  | some l0 =>
    rw [hf] at hres
    simp only [Prod.mk.injEq, Except.ok.injEq, Option.some.injEq] at hres
    obtain ⟨hl, -⟩ := hres
    subst hl
    simp [hb]
  | none =>
    rw [hf] at hres
    dsimp only at hres ⊢
    cases hg : alGet state.index.entries n with
    | none => rw [hg] at hres
    | some chunkCid =>
      rw [hg] at hres
      dsimp only at hres ⊢
      cases hc : env.fetchChunk chunkCid with
      | none => rw [hc] at hres; simp at hres
      | some chunk =>
        rw [hc] at hres
        simp only [Prod.mk.injEq, Except.ok.injEq] at hres
        obtain ⟨hl, -⟩ := hres
        dsimp only
        rw [hl]
        simp [hb]

/-- Witness for C8 at a concrete snapshot whose head record carries a
foreign `chainId`. -/
theorem C8_domain_mismatch_treated_as_absent_witness :
    getLinkForNameE envAllOk stateWrongChain "a" = .ok (some linkWrongChain, none) ∧
    linkWrongChain.chainId ≠ stateWrongChain.chainId ∧
    getSnippetPayloadE envAllOk stateWrongChain "a" = .ok none :=
  ⟨by decide, by decide,
   C8_domain_mismatch_treated_as_absent envAllOk stateWrongChain "a" linkWrongChain none
     (by decide) (by decide)⟩

/-! ## The upsert loop on fresh, distinct names (no rotation) -/

theorem applyUpserts_no_rotation (env : EnvM) (chainId : Nat) (owner : String) :
    ∀ (ups : List (String × Payload)) (k : Nat) (head : NamespaceChunk)
      (entries : Entries) (t : Trace) (h' : NamespaceChunk) (e' : Entries) (t' : Trace),
      head.links.length + ups.length ≤ 100 →
      (∀ u ∈ ups, ∀ x ∈ head.links, x.name ≠ u.1) →
      (ups.map Prod.fst).Nodup →
      applyUpserts env chainId owner ups k head entries t = (.ok (h', e'), t') →
      h'.prev = head.prev ∧
      h'.links.map (fun x => x.name) = head.links.map (fun x => x.name) ++ ups.map Prod.fst ∧
      e' = entries ∧ t'.sealed = t.sealed := by
  intro ups
  induction ups with
  | nil =>
    intro k head entries t h' e' t' hlen hfresh hnd h
    unfold applyUpserts at h
    simp only [Prod.mk.injEq, Except.ok.injEq] at h
    obtain ⟨⟨hh, he⟩, ht⟩ := h
    subst hh he ht
    simp
  | cons u rest ih =>
    intro k head entries t h' e' t' hlen hfresh hnd h
    obtain ⟨n, p⟩ := u
    unfold applyUpserts at h
    dsimp only at h
    cases hc : env.addDoc (.payload p) with
    | none => rw [hc] at h; simp at h
    | some payloadCid =>
      rw [hc] at h
      dsimp only at h
      cases hs : env.signLink (mkLinkBase chainId owner env k n payloadCid) with
      | none => rw [hs] at h; simp at h
      | some sig =>
        rw [hs] at h
        dsimp only at h
        have hnotfull : (head.links.length == 100) = false := by
          simp only [List.length_cons] at hlen
          simp only [beq_eq_false_iff_ne, ne_eq]
          omega
        rw [rotateIfFull, if_neg (by simp [hnotfull])] at h
        dsimp only at h
        have hfresh1 : ∀ x ∈ head.links, x.name ≠ n := by
          intro x hx
          exact hfresh (n, p) (by simp) x hx
        have hset : setLink head.links
            (CustomDataLink.mk (mkLinkBase chainId owner env k n payloadCid) sig) =
            head.links ++ [CustomDataLink.mk (mkLinkBase chainId owner env k n payloadCid) sig] :=
          setLink_of_not_mem _ _ (by intro x hx; exact hfresh1 x hx)
        rw [hset] at h
        have hlen2 : (head.links ++ [CustomDataLink.mk (mkLinkBase chainId owner env k n payloadCid) sig]).length + rest.length ≤ 100 := by
          simp only [List.length_append, List.length_singleton]
          simp only [List.length_cons] at hlen
          omega
        have hfresh2 : ∀ u' ∈ rest, ∀ x ∈ head.links ++ [CustomDataLink.mk (mkLinkBase chainId owner env k n payloadCid) sig], x.name ≠ u'.1 := by
          intro u' hu' x hx
          rcases List.mem_append.mp hx with hx1 | hx2
          · exact hfresh u' (by simp [hu']) x hx1
          · have hxn : x.name = n := by
              simp only [List.mem_singleton] at hx2
              rw [hx2]; rfl
            rw [hxn]
            simp only [List.map_cons, List.nodup_cons] at hnd
            intro heq
            exact hnd.1 (heq ▸ List.mem_map_of_mem Prod.fst hu')
        have hnd2 : (rest.map Prod.fst).Nodup := by
          simp only [List.map_cons, List.nodup_cons] at hnd
          exact hnd.2
        obtain ⟨hp, hm, he, ht⟩ := ih (k + 1) _ entries _ h' e' t' hlen2 hfresh2 hnd2 h
        refine ⟨hp, ?_, he, by simpa using ht⟩
        rw [hm]
        simp [List.map_append, mkLinkBase]

/-! ## C5: deletes are applied before upserts -/

/-- C5: publishing `{upserts := [("b", P)], deletes := ["a"]}` against a
snapshot whose head contains only a record named "a" yields a head whose only
record is named "b", an index entry for "b" pointing at the new head chunk,
and no index entry for "a": deletes are applied before upserts in one batch. -/
theorem C5_delete_then_upsert_rename (env : EnvM) (state : ProfileState)
    (t0 : Trace) (p : Payload) (l : CustomDataLink)
    (hhead : state.head.links = [l]) (hname : l.name = "a") :
    onOk (publishChangesE env state { upserts := [("b", p)], deletes := ["a"] } t0)
      (fun s' _ => s'.head.links.map (fun x => x.name) = ["b"] ∧
        (∃ hc, s'.headCid = some hc ∧ alGet s'.index.entries "b" = some hc) ∧
        alGet s'.index.entries "a" = none) := by
  unfold onOk
  cases hres : publishChangesE env state { upserts := [("b", p)], deletes := ["a"] } t0 with
  | mk r tr =>
    cases r with
    | error e => exact True.intro
    | ok s' =>
      show _ ∧ _ ∧ _
      rcases publishChangesE_ok env state _ t0 s' tr hres with
        ⟨habs, -⟩ | ⟨head1, entries1, tmid, happ, hcommit⟩
      · exact absurd habs (by simp)
      · have hlinks0 : state.head.links.filter
            (fun x => !((["a"] : List String).contains x.name)) = [] := by
          rw [hhead]
          simp [hname]
        rw [hlinks0] at happ
        obtain ⟨hprev, hmap, hent, -⟩ := applyUpserts_no_rotation env state.chainId
          state.owner [("b", p)] 0 { prev := state.head.prev, links := [] } _ t0
          head1 entries1 tmid (by simp) (by simp) (by simp) happ
        simp only [List.map_nil, List.nil_append, List.map_cons] at hmap
        obtain ⟨hshead, -, hc, -, hscid, hsent, -⟩ :=
          commitState_ok env state head1 entries1 tmid s' tr hcommit
        have hone : ∃ ll, head1.links = [ll] ∧ ll.name = "b" := by
          cases hl : head1.links with
          | nil => rw [hl] at hmap; simp at hmap
          | cons a as =>
            rw [hl] at hmap
            cases as with
            | nil =>
              simp only [List.map_cons, List.map_nil] at hmap
              exact ⟨a, rfl, by simpa using hmap⟩
            | cons b bs => simp at hmap
        obtain ⟨ll, hll, hlln⟩ := hone
        refine ⟨by rw [hshead, hll]; simp [hlln], ⟨hc, hscid, ?_⟩, ?_⟩
        · rw [hsent, hll]
          simp only [List.foldl_cons, List.foldl_nil, hlln]
          rw [alGet_alSet]
          simp
        · rw [hsent, hll]
          simp only [List.foldl_cons, List.foldl_nil, hlln]
          rw [alGet_alSet]
          simp only [if_neg (by decide : ¬ ("b" : String) = "a")]
          rw [hent]
          simp only [List.foldl_cons, List.foldl_nil]
          rw [alGet_alDel]
          simp

/-- Witness for C5 at a concrete snapshot and environment. -/
theorem C5_delete_then_upsert_rename_witness :
    stateWrongChain.head.links = [linkWrongChain] ∧ linkWrongChain.name = "a" ∧
    onOk (publishChangesE envAllOk stateWrongChain
        { upserts := [("b", 9)], deletes := ["a"] } traceZero)
      (fun s' _ => s'.head.links.map (fun x => x.name) = ["b"] ∧
        (∃ hc, s'.headCid = some hc ∧ alGet s'.index.entries "b" = some hc) ∧
        alGet s'.index.entries "a" = none) :=
  ⟨by decide, by decide,
   C5_delete_then_upsert_rename envAllOk stateWrongChain traceZero 9 linkWrongChain
     (by decide) (by decide)⟩

/-! ## Decomposition lemmas for the upsert loop -/

theorem applyUpserts_append (env : EnvM) (chainId : Nat) (owner : String)
    (xs ys : List (String × Payload)) :
    ∀ (k : Nat) (head : NamespaceChunk) (entries : Entries) (t : Trace),
      applyUpserts env chainId owner (xs ++ ys) k head entries t =
        (match applyUpserts env chainId owner xs k head entries t with
         | (.error e, t1) => (.error e, t1)
         | (.ok (h1, e1), t1) => applyUpserts env chainId owner ys (k + xs.length) h1 e1 t1) := by
  induction xs with
  | nil =>
    intro k head entries t
    simp [applyUpserts]
  | cons u rest ih =>
    intro k head entries t
    obtain ⟨n, p⟩ := u
    rw [List.cons_append]
    simp only [applyUpserts, List.length_cons]
    cases hc : env.addDoc (.payload p) with
    | none => rfl
    | some payloadCid =>
      dsimp only
      cases hs : env.signLink (mkLinkBase chainId owner env k n payloadCid) with
      | none => rfl
      | some sig =>
        dsimp only
        cases hrot : rotateIfFull env head entries { t with writes := t.writes + 1, signs := t.signs + 1 } with
        | mk r t3 =>
          cases r with
          | error e0 => rfl
          | ok pr =>
            obtain ⟨h1, e1⟩ := pr
            dsimp only
            rw [ih (k + 1)]
            have harith : k + 1 + rest.length = k + (rest.length + 1) := by omega
            rw [harith]

theorem applyUpserts_single (env : EnvM) (chainId : Nat) (owner : String)
    (n : String) (p : Payload) (k : Nat) (head : NamespaceChunk) (entries : Entries)
    (t : Trace) (h' : NamespaceChunk) (e' : Entries) (t' : Trace)
    (h : applyUpserts env chainId owner [(n, p)] k head entries t = (.ok (h', e'), t')) :
    ∃ payloadCid sig h1 e1 t3,
      env.addDoc (.payload p) = some payloadCid ∧
      env.signLink (mkLinkBase chainId owner env k n payloadCid) = some sig ∧
      rotateIfFull env head entries { t with writes := t.writes + 1, signs := t.signs + 1 }
        = (.ok (h1, e1), t3) ∧
      h' = { h1 with links := setLink h1.links (CustomDataLink.mk (mkLinkBase chainId owner env k n payloadCid) sig) } ∧
      e' = e1 ∧ t' = t3 := by
  unfold applyUpserts at h
  dsimp only at h
  cases hc : env.addDoc (.payload p) with
  | none => rw [hc] at h; simp at h
  | some payloadCid =>
    rw [hc] at h
    dsimp only at h
    cases hs : env.signLink (mkLinkBase chainId owner env k n payloadCid) with
    | none => rw [hs] at h; simp at h
    | some sig =>
      rw [hs] at h
      dsimp only at h
      cases hrot : rotateIfFull env head entries { t with writes := t.writes + 1, signs := t.signs + 1 } with
      | mk r t3 =>
        rw [hrot] at h
        cases r with
        | error e0 => simp at h
        | ok pr =>
          obtain ⟨h1, e1⟩ := pr
          dsimp only at h
          unfold applyUpserts at h
          simp only [Prod.mk.injEq, Except.ok.injEq] at h
          exact ⟨payloadCid, sig, h1, e1, t3, rfl, hs, rfl, h.1.1.symm, h.1.2.symm, h.2.symm⟩

/-! ## C2: rotation at capacity 100 -/

/-- C2: starting from an empty head, a batch of 100 distinct upserts causes
no rotation and leaves the head with exactly 100 records and `prev` still
`null`; a batch of the same 100 upserts followed by a 101st distinct upsert
seals the head: the returned head has `prev` set to the sealed chunk's
content address and contains exactly one record (the 101st), and the index
entries of the first 100 names all point at the sealed chunk's address. -/
theorem C2_rotation_at_capacity (env : EnvM) (state : ProfileState)
    (t0 : Trace) (first : List (String × Payload)) (last1 : String × Payload)
    (hlen : first.length = 100)
    (hnd : ((first ++ [last1]).map Prod.fst).Nodup)
    (hhead : state.head = { prev := none, links := [] }) :
    onOk (publishChangesE env state { upserts := first, deletes := [] } t0)
      (fun s' t' => s'.head.prev = none ∧ s'.head.links.length = 100 ∧
        t'.sealed = t0.sealed) ∧
    onOk (publishChangesE env state { upserts := first ++ [last1], deletes := [] } t0)
      (fun s' t' => ∃ c, s'.head.prev = some c ∧
        s'.head.links.map (fun x => x.name) = [last1.1] ∧
        (∀ u ∈ first, alGet s'.index.entries u.1 = some c) ∧
        ∃ hchunk, t'.sealed = t0.sealed ++ [(hchunk, c)]) := by
  have hndFirst : (first.map Prod.fst).Nodup := by
    rw [List.map_append] at hnd
    exact hnd.of_append_left
  constructor
  · unfold onOk
    cases hres : publishChangesE env state { upserts := first, deletes := [] } t0 with
    | mk r tr =>
      cases r with
      | error e => exact True.intro
      | ok s' =>
        show _ ∧ _ ∧ _
        rcases publishChangesE_ok env state _ t0 s' tr hres with
          ⟨habs, -⟩ | ⟨head1, entries1, tmid, happ, hcommit⟩
        · dsimp only at habs
          rw [habs] at hlen
          simp at hlen
        · rw [hhead] at happ
          simp only [List.filter_nil, List.foldl_nil] at happ
          obtain ⟨hprev, hmap, -, hseal⟩ := applyUpserts_no_rotation env state.chainId
            state.owner first 0 { prev := none, links := [] } _ t0
            head1 entries1 tmid (by simp [hlen]) (by simp) hndFirst happ
          obtain ⟨hshead, hcseal, -⟩ :=
            commitState_ok env state head1 entries1 tmid s' tr hcommit
          refine ⟨by rw [hshead]; exact hprev, ?_, by rw [hcseal, hseal]⟩
          rw [hshead]
          have := congrArg List.length hmap
          simpa [hlen] using this
  · unfold onOk
    cases hres : publishChangesE env state { upserts := first ++ [last1], deletes := [] } t0 with
    | mk r tr =>
      cases r with
      | error e => exact True.intro
      | ok s' =>
        show ∃ c, _
        rcases publishChangesE_ok env state _ t0 s' tr hres with
          ⟨habs, -⟩ | ⟨head1, entries1, tmid, happ, hcommit⟩
        · dsimp only at habs
          simp at habs
        · rw [hhead] at happ
          simp only [List.filter_nil, List.foldl_nil] at happ
          rw [applyUpserts_append] at happ
          cases hfirst : applyUpserts env state.chainId state.owner first 0
              { prev := none, links := [] } state.index.entries t0 with
          | mk r1 tmid1 =>
            rw [hfirst] at happ
            cases r1 with
            | error e1 => simp at happ
            | ok pr1 =>
              obtain ⟨h1, e1⟩ := pr1
              dsimp only at happ
              obtain ⟨hprev1, hmap1, hent1, hseal1⟩ := applyUpserts_no_rotation env
                state.chainId state.owner first 0 { prev := none, links := [] }
                state.index.entries t0 h1 e1 tmid1 (by simp [hlen]) (by simp) hndFirst hfirst
              obtain ⟨pc, sg, h2, e2, t3, -, -, hrot, hh', he', ht'⟩ :=
                applyUpserts_single env state.chainId state.owner last1.1 last1.2
                  (0 + first.length) h1 e1 tmid1 head1 entries1 tmid (by
                    simpa using happ)
              have hlen1 : h1.links.length = 100 := by
                have := congrArg List.length hmap1
                simpa [hlen] using this
              rcases rotateIfFull_ok env h1 e1 _ h2 e2 t3 hrot with
                ⟨-, c, -, hh2, he2, hseal3, -⟩ | ⟨hne, -⟩
              · obtain ⟨hshead, hcseal, hc, -, -, hsent, -⟩ :=
                  commitState_ok env state head1 entries1 tmid s' tr hcommit
                refine ⟨c, ?_, ?_, ?_, ⟨h1, ?_⟩⟩
                · rw [hshead, hh', hh2]
                · rw [hshead, hh', hh2]
                  simp [setLink, mkLinkBase]
                · intro u hu
                  have hu1 : u.1 ∈ h1.links.map (fun x => x.name) := by
                    rw [hmap1]
                    simp only [List.map_nil, List.nil_append]
                    exact List.mem_map_of_mem Prod.fst hu
                  have hune : ¬ last1.1 = u.1 := by
                    rw [List.map_append] at hnd
                    intro heq
                    have hmem : last1.1 ∈ first.map Prod.fst :=
                      heq ▸ List.mem_map_of_mem Prod.fst hu
                    have := (List.nodup_append.mp hnd).2.2
                    exact this hmem (by simp)
                  rw [hsent, hh', hh2]
                  simp only [setLink]
                  simp only [List.foldl_cons, List.foldl_nil]
                  rw [alGet_alSet]
                  simp only [mkLinkBase] at hune ⊢
                  rw [if_neg hune, he', he2]
                  rw [alGet_foldl_alSet]
                  rw [if_pos hu1]
                · rw [hcseal, ht', hseal3]
                  simp only []
                  rw [hseal1]
              · exact absurd hlen1 (by simpa using hne)

/-- Witness for C2 at 101 concrete distinct names against the empty snapshot. -/
theorem C2_rotation_at_capacity_witness :
    upsHundred.length = 100 ∧
    (((upsHundred ++ [upLast]).map Prod.fst).Nodup ∧
     stateEmpty.head = { prev := none, links := [] }) ∧
    (onOk (publishChangesE envAllOk stateEmpty { upserts := upsHundred, deletes := [] } traceZero)
      (fun s' t' => s'.head.prev = none ∧ s'.head.links.length = 100 ∧
        t'.sealed = traceZero.sealed) ∧
     onOk (publishChangesE envAllOk stateEmpty
        { upserts := upsHundred ++ [upLast], deletes := [] } traceZero)
      (fun s' t' => ∃ c, s'.head.prev = some c ∧
        s'.head.links.map (fun x => x.name) = [upLast.1] ∧
        (∀ u ∈ upsHundred, alGet s'.index.entries u.1 = some c) ∧
        ∃ hchunk, t'.sealed = traceZero.sealed ++ [(hchunk, c)])) :=
  ⟨by decide, ⟨by decide, by decide⟩,
   C2_rotation_at_capacity envAllOk stateEmpty traceZero upsHundred upLast
     (by decide) (by decide) (by decide)⟩

/-! ## C1: the index invariant -/

/-- Counterexample to C1 as stated.  First conjunct: against a snapshot whose
head is at capacity, the batch `{upserts := [fresh1, fresh2], deletes :=
[resident]}` triggers a rotation; the name `cname 1` is neither deleted in
the publish nor present in the returned head, yet its index entry changes
(from the old head address 110 to the freshly sealed chunk's address), so
"entries[name] is the same as before the publish" fails.  Second conjunct:
an empty batch returns the input snapshot unchanged, so for an input whose
index lacks an entry for a head-resident name, the published state violates
"entries[name] equals the head chunk's content address" as well. -/
theorem C1_counterexample :
    (okWith (publishChangesE envAllOk stateFull changesRot traceZero)
      (fun s' _ => findLink s'.head.links (cname 1) = none ∧
        ¬ alGet s'.index.entries (cname 1) = alGet stateFull.index.entries (cname 1)) ∧
     ¬ (cname 1) ∈ changesRot.deletes) ∧
    okWith (publishChangesE envAllOk stateInconsistent { upserts := [], deletes := [] } traceZero)
      (fun s' _ => (mkLink100 0) ∈ s'.head.links ∧
        ¬ alGet s'.index.entries (mkLink100 0).name = s'.headCid) := by
  decide

theorem commitState_entries (env : EnvM) (state : ProfileState)
    (head1 : NamespaceChunk) (entries1 : Entries) (t : Trace)
    (s' : ProfileState) (t' : Trace)
    (h : commitState env state head1 entries1 t = (.ok s', t')) :
    (∀ l ∈ s'.head.links, alGet s'.index.entries l.name = s'.headCid) ∧
    (∀ nm, findLink s'.head.links nm = none →
      alGet s'.index.entries nm = alGet entries1 nm) := by
  obtain ⟨hh, -, hc, -, hcid, hent, -⟩ := commitState_ok env state head1 entries1 t s' t' h
  constructor
  · intro l hl
    have hmem : l.name ∈ head1.links.map (fun x => x.name) := by
      rw [hh] at hl
      exact List.mem_map_of_mem _ hl
    rw [hent, hcid, alGet_foldl_alSet, if_pos hmem]
  · intro nm hnone
    rw [hh] at hnone
    have hmem : ¬ nm ∈ head1.links.map (fun x => x.name) := by
      intro hmem
      obtain ⟨l, hl, hln⟩ := List.mem_map.mp hmem
      exact (findLink_eq_none_iff _ _ |>.mp hnone) l hl hln
    rw [hent, alGet_foldl_alSet, if_neg hmem]

theorem applyUpserts_untouched (env : EnvM) (chainId : Nat) (owner : String) :
    ∀ (ups : List (String × Payload)) (k : Nat) (head : NamespaceChunk)
      (entries : Entries) (t : Trace) (h' : NamespaceChunk) (e' : Entries) (t' : Trace),
      applyUpserts env chainId owner ups k head entries t = (.ok (h', e'), t') →
      ∃ ns, t'.sealed = t.sealed ++ ns ∧
        ∀ nm, (∀ q ∈ ns, findLink q.1.links nm = none) →
          alGet e' nm = alGet entries nm := by
  intro ups
  induction ups with
  | nil =>
    intro k head entries t h' e' t' h
    unfold applyUpserts at h
    simp only [Prod.mk.injEq, Except.ok.injEq] at h
    obtain ⟨⟨-, he⟩, ht⟩ := h
    exact ⟨[], by rw [← ht]; simp, fun nm _ => by rw [← he]⟩
  | cons u rest ih =>
    intro k head entries t h' e' t' h
    obtain ⟨n, p⟩ := u
    unfold applyUpserts at h
    dsimp only at h
    cases hc : env.addDoc (.payload p) with
    | none => rw [hc] at h; simp at h
    | some payloadCid =>
      rw [hc] at h
      dsimp only at h
      cases hs : env.signLink (mkLinkBase chainId owner env k n payloadCid) with
      | none => rw [hs] at h; simp at h
      | some sig =>
        rw [hs] at h
        dsimp only at h
        cases hrot : rotateIfFull env head entries { t with writes := t.writes + 1, signs := t.signs + 1 } with
        | mk r t3 =>
          rw [hrot] at h
          cases r with
          | error e0 => simp at h
          | ok pr =>
            obtain ⟨h1, e1⟩ := pr
            dsimp only at h
            obtain ⟨ns', hseal', hpres'⟩ := ih (k + 1) _ e1 t3 h' e' t' h
            rcases rotateIfFull_ok env head entries _ h1 e1 t3 hrot with
              ⟨-, c, -, -, he1, hseal3, -⟩ | ⟨-, -, he1, ht3⟩
            · refine ⟨(head, c) :: ns', ?_, ?_⟩
              · rw [hseal', hseal3]
                simp
              · intro nm hq
                have hrotpres : alGet e1 nm = alGet entries nm := by
                  rw [he1, alGet_foldl_alSet, if_neg]
                  intro hmem
                  obtain ⟨l, hl, hln⟩ := List.mem_map.mp hmem
                  exact (findLink_eq_none_iff _ _ |>.mp (hq (head, c) (by simp))) l hl hln
                rw [hpres' nm (fun q hqmem => hq q (by simp [hqmem])), hrotpres]
            · refine ⟨ns', ?_, ?_⟩
              · rw [hseal', ht3]
              · intro nm hq
                rw [hpres' nm hq, he1]

/-- C1 (amended): after a successful `publishChanges` of a non-empty batch
(and after every successful `addOrUpdateSnippet` or `deleteSnippet`, which
have no no-op path), every name present in the returned head chunk has
`entries[name]` equal to the returned head chunk's content address; and
every name that was not deleted in this publish, is not present in the
returned head, and is not contained in any chunk sealed by rotation during
this publish keeps its previous `entries[name]` unchanged.  (The original
claim also asserted preservation for names that were sealed into a rotated
chunk during the publish, and asserted the head property for the empty-batch
no-op path; both fail, see the counterexample.) -/
theorem C1_index_invariant_amended (env : EnvM) (state : ProfileState)
    (changes : Changes) (t0 : Trace) (n : String) (p : Payload) (nd : String)
    (t1 t2 : Trace)
    (hseal0 : t0.sealed = []) (hseal1 : t1.sealed = [])
    (hne : changes.upserts ≠ [] ∨ changes.deletes ≠ []) :
    onOk (publishChangesE env state changes t0) (fun s' t' =>
      (∀ l ∈ s'.head.links, alGet s'.index.entries l.name = s'.headCid) ∧
      (∀ nm, nm ∉ changes.deletes → findLink s'.head.links nm = none →
        (∀ q ∈ t'.sealed, findLink q.1.links nm = none) →
        alGet s'.index.entries nm = alGet state.index.entries nm)) ∧
    onOk (addOrUpdateSnippetE env state n p t1) (fun s' t' =>
      (∀ l ∈ s'.head.links, alGet s'.index.entries l.name = s'.headCid) ∧
      (∀ nm, findLink s'.head.links nm = none →
        (∀ q ∈ t'.sealed, findLink q.1.links nm = none) →
        alGet s'.index.entries nm = alGet state.index.entries nm)) ∧
    onOk (deleteSnippetE env state nd t2) (fun s' _ =>
      (∀ l ∈ s'.head.links, alGet s'.index.entries l.name = s'.headCid) ∧
      (∀ nm, nm ≠ nd → findLink s'.head.links nm = none →
        alGet s'.index.entries nm = alGet state.index.entries nm)) := by
  refine ⟨?_, ?_, ?_⟩
  · unfold onOk
    cases hres : publishChangesE env state changes t0 with
    | mk r tr =>
      cases r with
      | error e => exact True.intro
      | ok s' =>
        show _ ∧ _
        rcases publishChangesE_ok env state changes t0 s' tr hres with
          ⟨hu, hd, -⟩ | ⟨head1, entries1, tmid, happ, hcommit⟩
        · rcases hne with hne | hne
          · exact absurd hu hne
          · exact absurd hd hne
        · obtain ⟨hA, hB⟩ := commitState_entries env state head1 entries1 tmid s' tr hcommit
          refine ⟨hA, ?_⟩
          intro nm hnd hnone hsealcond
          rw [hB nm hnone]
          obtain ⟨ns, hseal, hpres⟩ := applyUpserts_untouched env state.chainId
            state.owner changes.upserts 0 _ _ t0 head1 entries1 tmid happ
          have hsmid : tmid.sealed = ns := by rw [hseal, hseal0]; simp
          have hcseal : tr.sealed = tmid.sealed :=
            (commitState_ok env state head1 entries1 tmid s' tr hcommit).2.1
          rw [hpres nm ?hq]
          · rw [alGet_foldl_alDel, if_neg hnd]
          · intro q hqmem
            exact hsealcond q (by rw [hcseal, hsmid]; exact hqmem)
  · unfold onOk
    cases hres : addOrUpdateSnippetE env state n p t1 with
    | mk r tr =>
      cases r with
      | error e => exact True.intro
      | ok s' =>
        show _ ∧ _
        obtain ⟨payloadCid, sig, h1, e1, t3, -, hrot, hcommit⟩ :=
          addOrUpdateSnippetE_ok env state n p t1 s' tr hres
        obtain ⟨hA, hB⟩ := commitState_entries env state _ e1 t3 s' tr hcommit
        refine ⟨hA, ?_⟩
        intro nm hnone hsealcond
        rw [hB nm hnone]
        have hcseal : tr.sealed = t3.sealed :=
          (commitState_ok env state _ e1 t3 s' tr hcommit).2.1
        rcases rotateIfFull_ok env state.head state.index.entries _ h1 e1 t3 hrot with
          ⟨-, c, -, -, he1, hseal3, -⟩ | ⟨-, -, he1, -⟩
        · have hq : findLink state.head.links nm = none := by
            refine hsealcond (state.head, c) ?_
            rw [hcseal, hseal3, hseal1]
            simp
          rw [he1, alGet_foldl_alSet, if_neg]
          intro hmem
          obtain ⟨l, hl, hln⟩ := List.mem_map.mp hmem
          exact (findLink_eq_none_iff _ _ |>.mp hq) l hl hln
        · rw [he1]
  · unfold onOk
    cases hres : deleteSnippetE env state nd t2 with
    | mk r tr =>
      cases r with
      | error e => exact True.intro
      | ok s' =>
        show _ ∧ _
        unfold deleteSnippetE at hres
        obtain ⟨hA, hB⟩ := commitState_entries env state _ _ t2 s' tr hres
        refine ⟨hA, ?_⟩
        intro nm hnd hnone
        rw [hB nm hnone, alGet_alDel, if_neg (fun e => hnd e.symm)]

/-- Witness for the amended C1 at a concrete snapshot, batch and environment. -/
theorem C1_index_invariant_amended_witness :
    (traceZero.sealed = [] ∧
     ({ upserts := [("a", 5)], deletes := ["z"] } : Changes).upserts ≠ []) ∧
    (onOk (publishChangesE envAllOk stateEmpty { upserts := [("a", 5)], deletes := ["z"] } traceZero)
      (fun s' t' =>
        (∀ l ∈ s'.head.links, alGet s'.index.entries l.name = s'.headCid) ∧
        (∀ nm, nm ∉ ({ upserts := [("a", 5)], deletes := ["z"] } : Changes).deletes →
          findLink s'.head.links nm = none →
          (∀ q ∈ t'.sealed, findLink q.1.links nm = none) →
          alGet s'.index.entries nm = alGet stateEmpty.index.entries nm)) ∧
     onOk (addOrUpdateSnippetE envAllOk stateEmpty "b" 6 traceZero)
      (fun s' t' =>
        (∀ l ∈ s'.head.links, alGet s'.index.entries l.name = s'.headCid) ∧
        (∀ nm, findLink s'.head.links nm = none →
          (∀ q ∈ t'.sealed, findLink q.1.links nm = none) →
          alGet s'.index.entries nm = alGet stateEmpty.index.entries nm)) ∧
     onOk (deleteSnippetE envAllOk stateEmpty "c" traceZero)
      (fun s' _ =>
        (∀ l ∈ s'.head.links, alGet s'.index.entries l.name = s'.headCid) ∧
        (∀ nm, nm ≠ "c" → findLink s'.head.links nm = none →
          alGet s'.index.entries nm = alGet stateEmpty.index.entries nm))) :=
  ⟨⟨by decide, by decide⟩,
   C1_index_invariant_amended envAllOk stateEmpty { upserts := [("a", 5)], deletes := ["z"] }
     traceZero "b" 6 "c" traceZero traceZero (by decide) (by decide)
     (Or.inl (by decide))⟩

/-! ## Canonicalization: order invariance -/

theorem sortKeysPairs_map_fst (l : List (String × JVal)) :
    (sortKeysPairs l).map Prod.fst = l.map Prod.fst := by
  induction l with
  | nil => rfl
  | cons kv rest ih => simp [sortKeysPairs, ih]

theorem alGetJ_sortKeysPairs (l : List (String × JVal)) (k : String) :
    alGetJ (sortKeysPairs l) k = (alGetJ l k).map sortKeys := by
  induction l with
  | nil => rfl
  | cons kv rest ih =>
    by_cases h : kv.1 = k
    · have hb : (kv.1 == k) = true := by simp [h]
      simp [sortKeysPairs, alGetJ, hb]
    · have hb : (kv.1 == k) = false := by simp [h]
      simp [sortKeysPairs, alGetJ, hb, ih]

theorem alGetJ_eq_some_iff (l : List (String × JVal)) (hnd : (l.map Prod.fst).Nodup)
    (k : String) (v : JVal) : alGetJ l k = some v ↔ (k, v) ∈ l := by
  induction l with
  | nil => simp [alGetJ]
  | cons kv rest ih =>
    simp only [List.map_cons, List.nodup_cons] at hnd
    by_cases h : kv.1 = k
    · have hb : (kv.1 == k) = true := by simp [h]
      simp only [alGetJ, hb, if_true, Option.some.injEq, List.mem_cons]
      constructor
      · intro hv
        left
        rw [← hv, ← h]
      · rintro (hv | hv)
        · exact (congrArg Prod.snd hv).symm
        · exact absurd (h ▸ List.mem_map_of_mem Prod.fst hv) hnd.1
    · have hb : (kv.1 == k) = false := by simp [h]
      simp only [alGetJ, hb, Bool.false_eq_true, if_false, List.mem_cons]
      rw [ih hnd.2]
      constructor
      · intro hv; right; exact hv
      · rintro (hv | hv)
        · exact absurd (congrArg Prod.fst hv).symm h
        · exact hv

theorem eq_of_perm_keySorted :
    ∀ (l1 l2 : List (String × JVal)), List.Perm l1 l2 →
      l1.Sorted keyLe → l2.Sorted keyLe → (l1.map Prod.fst).Nodup → l1 = l2 := by
  intro l1
  induction l1 with
  | nil =>
    intro l2 hp _ _ _
    exact (hp.symm.eq_nil).symm
  | cons a l1' ih =>
    intro l2 hp hs1 hs2 hnd
    cases l2 with
    | nil => exact absurd hp.symm (by simp)
    | cons b l2' =>
      have hab : a = b := by
        by_contra hne
        have ha2 : a ∈ l2' := by
          have := hp.subset (List.mem_cons_self a l1')
          rcases List.mem_cons.mp this with h | h
          · exact absurd h hne
          · exact h
        have hb1 : b ∈ l1' := by
          have := hp.symm.subset (List.mem_cons_self b l2')
          rcases List.mem_cons.mp this with h | h
          · exact absurd h.symm hne
          · exact h
        have h1 : a.1 ≤ b.1 := (List.pairwise_cons.mp hs1).1 b hb1
        have h2 : b.1 ≤ a.1 := (List.pairwise_cons.mp hs2).1 a ha2
        have hkey : a.1 = b.1 := le_antisymm h1 h2
        simp only [List.map_cons, List.nodup_cons] at hnd
        exact hnd.1 (hkey ▸ List.mem_map_of_mem Prod.fst hb1)
      subst hab
      have hp' : List.Perm l1' l2' := (List.perm_cons a).mp hp
      have := ih l2' hp' (List.pairwise_cons.mp hs1).2 (List.pairwise_cons.mp hs2).2
        (by simp only [List.map_cons, List.nodup_cons] at hnd; exact hnd.2)
      rw [this]

theorem sortKeys_eq_of_mapEq {a b : JVal} (h : MapEq a b) : sortKeys a = sortKeys b := by
  induction h with
  | null => rfl
  | bool b => rfl
  | num n => rfl
  | str s => rfl
  | arrNil => rfl
  | arrCons hxy hxs ihxy ihxs =>
    simp only [sortKeys, sortKeysList] at ihxs ⊢
    rw [JVal.arr.injEq] at ihxs
    rw [ihxy, ihxs]
  | obj hnd1 hnd2 hkeys hvals ih =>
    rename_i kvs1 kvs2
    simp only [sortKeys]
    have hnd1' : ((sortKeysPairs kvs1).map Prod.fst).Nodup := by
      rw [sortKeysPairs_map_fst]; exact hnd1
    have hnd2' : ((sortKeysPairs kvs2).map Prod.fst).Nodup := by
      rw [sortKeysPairs_map_fst]; exact hnd2
    have hperm : List.Perm (sortKeysPairs kvs1) (sortKeysPairs kvs2) := by
      rw [List.perm_ext_iff_of_nodup (hnd1'.of_map _) (hnd2'.of_map _)]
      rintro ⟨k, v⟩
      rw [← alGetJ_eq_some_iff _ hnd1' k v, ← alGetJ_eq_some_iff _ hnd2' k v,
        alGetJ_sortKeysPairs, alGetJ_sortKeysPairs]
      constructor
      · intro h1
        cases hg1 : alGetJ kvs1 k with
        | none => rw [hg1] at h1; simp at h1
        | some w1 =>
          rw [hg1] at h1
          simp only [Option.map_some', Option.some.injEq] at h1
          cases hg2 : alGetJ kvs2 k with
          | none => exact absurd hg1 (by rw [(hkeys k).mpr hg2]; simp)
          | some w2 =>
            simp only [Option.map_some', Option.some.injEq]
            rw [← h1]
            exact (ih k w1 w2 hg1 hg2).symm
      · intro h2
        cases hg2 : alGetJ kvs2 k with
        | none => rw [hg2] at h2; simp at h2
        | some w2 =>
          rw [hg2] at h2
          simp only [Option.map_some', Option.some.injEq] at h2
          cases hg1 : alGetJ kvs1 k with
          | none => exact absurd hg2 (by rw [(hkeys k).mp hg1]; simp)
          | some w1 =>
            simp only [Option.map_some', Option.some.injEq]
            rw [← h2]
            exact ih k w1 w2 hg1 hg2
    have hp : List.Perm (List.insertionSort keyLe (sortKeysPairs kvs1))
        (List.insertionSort keyLe (sortKeysPairs kvs2)) :=
      ((List.perm_insertionSort keyLe _).trans hperm).trans
        (List.perm_insertionSort keyLe _).symm
    have hnds : ((List.insertionSort keyLe (sortKeysPairs kvs1)).map Prod.fst).Nodup :=
      (((List.perm_insertionSort keyLe (sortKeysPairs kvs1)).map Prod.fst).nodup_iff).mpr hnd1'
    rw [eq_of_perm_keySorted _ _ hp (List.sorted_insertionSort keyLe _)
      (List.sorted_insertionSort keyLe _) hnds]

theorem alGetJ_filter_sig (kvs : List (String × JVal)) (k : String) :
    alGetJ (kvs.filter (fun kv => !(kv.1 == "signature"))) k =
      if "signature" = k then none else alGetJ kvs k := by
  induction kvs with
  | nil => by_cases hk : "signature" = k <;> simp [alGetJ, hk]
  | cons kv rest ih =>
    by_cases hsig : kv.1 = "signature"
    · have hb : (kv.1 == "signature") = true := by simp [hsig]
      by_cases hk : "signature" = k
      · subst hk
        simp only [if_pos rfl] at ih
        simpa [List.filter_cons, hb] using ih
      · have hb' : (kv.1 == k) = false := by
          simp only [beq_eq_false_iff_ne]; rw [hsig]; exact hk
        simp only [if_neg hk] at ih
        simp [List.filter_cons, hb, hb', ih, alGetJ, hk]
    · have hb : (kv.1 == "signature") = false := by simp [hsig]
      by_cases hk : kv.1 = k
      · have hb' : (kv.1 == k) = true := by simp [hk]
        have hks : ¬ "signature" = k := fun e => hsig (hk.trans e.symm)
        simp [List.filter_cons, hb, hb', alGetJ, hks]
      · have hb' : (kv.1 == k) = false := by simp [hk]
        simp [List.filter_cons, hb, hb', alGetJ, ih]

theorem delSignature_mapEq {a b : JVal} (h : MapEq a b) :
    MapEq (delSignature a) (delSignature b) := by
  cases h with
  | null => exact MapEq.null
  | bool b => exact MapEq.bool b
  | num n => exact MapEq.num n
  | str s => exact MapEq.str s
  | arrNil => exact MapEq.arrNil
  | arrCons hxy hxs => exact MapEq.arrCons hxy hxs
  | obj hnd1 hnd2 hkeys hvals =>
    rename_i kvs1 kvs2
    refine MapEq.obj ?_ ?_ ?_ ?_
    · exact List.Nodup.sublist (List.Sublist.map Prod.fst (List.filter_sublist _)) hnd1
    · exact List.Nodup.sublist (List.Sublist.map Prod.fst (List.filter_sublist _)) hnd2
    · intro k
      rw [alGetJ_filter_sig, alGetJ_filter_sig]
      by_cases hk : "signature" = k
      · simp [hk]
      · simp only [if_neg hk]
        exact hkeys k
    · intro k v1 v2 h1 h2
      rw [alGetJ_filter_sig] at h1 h2
      by_cases hk : "signature" = k
      · rw [if_pos hk] at h1
        exact absurd h1 (by simp)
      · rw [if_neg hk] at h1 h2
        exact hvals k v1 v2 h1 h2

/-- C6: canonical encoding is insertion-order-invariant: for any two records
that are equal as key-value maps at every nesting level but whose object keys
are presented in different orders, `canonicalizeLink` produces identical
bytes and `keccakCanonicalLink` produces an identical hash (for any hash
function over the canonical bytes). -/
theorem C6_canonical_order_invariance (keccak : List UInt8 → String) (a b : JVal)
    (h : MapEq a b) :
    canonicalizeLink a = canonicalizeLink b ∧
    keccakCanonicalLink keccak a = keccakCanonicalLink keccak b := by
  have hcan : canonicalizeLink a = canonicalizeLink b := by
    unfold canonicalizeLink
    rw [sortKeys_eq_of_mapEq (delSignature_mapEq h)]
  exact ⟨hcan, by unfold keccakCanonicalLink; rw [hcan]⟩

/-- Witness for C6: the same two-field record presented in both key orders. -/
theorem C6_canonical_order_invariance_witness :
    MapEq (JVal.obj [("x", JVal.null), ("y", JVal.bool true)])
          (JVal.obj [("y", JVal.bool true), ("x", JVal.null)]) ∧
    (canonicalizeLink (JVal.obj [("x", JVal.null), ("y", JVal.bool true)]) =
       canonicalizeLink (JVal.obj [("y", JVal.bool true), ("x", JVal.null)]) ∧
     keccakCanonicalLink (fun _ => "h") (JVal.obj [("x", JVal.null), ("y", JVal.bool true)]) =
       keccakCanonicalLink (fun _ => "h") (JVal.obj [("y", JVal.bool true), ("x", JVal.null)])) := by
  have hme : MapEq (JVal.obj [("x", JVal.null), ("y", JVal.bool true)])
      (JVal.obj [("y", JVal.bool true), ("x", JVal.null)]) := by
    refine MapEq.obj (by decide) (by decide) ?_ ?_
    · intro k
      by_cases hx : ("x" : String) = k <;> by_cases hy : ("y" : String) = k <;>
        simp_all [alGetJ]
    · intro k v1 v2 h1 h2
      by_cases hx : ("x" : String) = k
      · rw [← hx] at h1 h2
        simp [alGetJ] at h1 h2
        rw [← h1, ← h2]
        exact MapEq.null
      · by_cases hy : ("y" : String) = k
        · rw [← hy] at h1 h2
          simp [alGetJ] at h1 h2
          rw [← h1, ← h2]
          exact MapEq.bool true
        · have hbx : (("x" : String) == k) = false := by simp [hx]
          have hby : (("y" : String) == k) = false := by simp [hy]
          simp [alGetJ, hbx, hby] at h1
  exact ⟨hme, C6_canonical_order_invariance (fun _ => "h") _ _ hme⟩

/-- C10: `canonicalizeLink` removes the signature field before encoding: for
every unsigned record base (an object without a "signature" key) and every
signature value, canonicalizing the signed record (the base with the
signature field appended, as the spread in the source does) yields exactly
the bytes of the unsigned base, and hence the same hash, so the signed hash
can be recomputed from a fully signed record. -/
theorem C10_canonicalize_strips_signature (keccak : List UInt8 → String)
    (kvs : List (String × JVal)) (v : JVal)
    (_hsig : "signature" ∉ kvs.map Prod.fst) :
    canonicalizeLink (JVal.obj (kvs ++ [("signature", v)])) =
      canonicalizeLink (JVal.obj kvs) ∧
    keccakCanonicalLink keccak (JVal.obj (kvs ++ [("signature", v)])) =
      keccakCanonicalLink keccak (JVal.obj kvs) := by
  have hdel : delSignature (JVal.obj (kvs ++ [("signature", v)])) =
      delSignature (JVal.obj kvs) := by
    simp [delSignature, List.filter_append]
  have hcan : canonicalizeLink (JVal.obj (kvs ++ [("signature", v)])) =
      canonicalizeLink (JVal.obj kvs) := by
    unfold canonicalizeLink
    rw [hdel]
  exact ⟨hcan, by unfold keccakCanonicalLink; rw [hcan]⟩

/-- Witness for C10 at a concrete one-field base and signature value. -/
theorem C10_canonicalize_strips_signature_witness :
    ("signature" ∉ ([("name", JVal.str "a")].map Prod.fst)) ∧
    (canonicalizeLink (JVal.obj ([("name", JVal.str "a")] ++ [("signature", JVal.num 3)])) =
       canonicalizeLink (JVal.obj [("name", JVal.str "a")]) ∧
     keccakCanonicalLink (fun _ => "h")
         (JVal.obj ([("name", JVal.str "a")] ++ [("signature", JVal.num 3)])) =
       keccakCanonicalLink (fun _ => "h") (JVal.obj [("name", JVal.str "a")])) :=
  ⟨by decide,
   C10_canonicalize_strips_signature (fun _ => "h") [("name", JVal.str "a")] (JVal.num 3)
     (by decide)⟩

/-! ## Base conversion lemmas -/

theorem natDigitsLE_zero (b : Nat) : ∀ f, natDigitsLE b f 0 = []
  | 0 => rfl
  | _ + 1 => rfl

theorem natDigitsLE_fuel (b : Nat) (hb : 2 ≤ b) :
    ∀ n f f', n ≤ f → n ≤ f' → natDigitsLE b f n = natDigitsLE b f' n := by
  intro n
  induction n using Nat.strong_induction_on with
  | _ n ih =>
    intro f f' hf hf'
    cases n with
    | zero => rw [natDigitsLE_zero, natDigitsLE_zero]
    | succ m =>
      cases f with
      | zero => omega
      | succ f0 =>
        cases f' with
        | zero => omega
        | succ f0' =>
          show (m + 1) % b :: natDigitsLE b f0 ((m + 1) / b) =
            (m + 1) % b :: natDigitsLE b f0' ((m + 1) / b)
          have hdiv : (m + 1) / b < m + 1 := Nat.div_lt_self (Nat.succ_pos m) (by omega)
          rw [ih ((m + 1) / b) hdiv f0 f0' (by omega) (by omega)]

theorem digitsLE_step (b : Nat) (hb : 2 ≤ b) (n : Nat) (hn : n ≠ 0) :
    digitsLE b n = n % b :: digitsLE b (n / b) := by
  cases n with
  | zero => exact absurd rfl hn
  | succ m =>
    show natDigitsLE b (m + 1) (m + 1) = (m + 1) % b :: digitsLE b ((m + 1) / b)
    show (m + 1) % b :: natDigitsLE b m ((m + 1) / b) = (m + 1) % b :: digitsLE b ((m + 1) / b)
    have hdiv : (m + 1) / b ≤ m := by
      have := Nat.div_lt_self (show 0 < m + 1 by omega) (show 1 < b by omega)
      omega
    rw [natDigitsLE_fuel b hb ((m + 1) / b) m ((m + 1) / b) hdiv (le_refl _)]
    rfl

theorem parseLE_digitsLE (b : Nat) (hb : 2 ≤ b) :
    ∀ n, parseLE b (digitsLE b n) = n := by
  intro n
  induction n using Nat.strong_induction_on with
  | _ n ih =>
    cases Nat.eq_zero_or_pos n with
    | inl h0 => rw [h0]; rfl
    | inr hpos =>
      rw [digitsLE_step b hb n (by omega)]
      show n % b + b * parseLE b (digitsLE b (n / b)) = n
      rw [ih (n / b) (Nat.div_lt_self hpos (by omega))]
      exact Nat.mod_add_div n b

theorem digitsLE_length_le (b : Nat) (hb : 2 ≤ b) :
    ∀ (k n : Nat), n < b ^ k → (digitsLE b n).length ≤ k := by
  intro k
  induction k with
  | zero =>
    intro n hn
    have : n = 0 := by simpa using hn
    rw [this]
    simp [digitsLE, natDigitsLE]
  | succ k ih =>
    intro n hn
    cases Nat.eq_zero_or_pos n with
    | inl h0 => rw [h0]; simp [digitsLE, natDigitsLE]
    | inr hpos =>
      rw [digitsLE_step b hb n (by omega)]
      simp only [List.length_cons]
      have hdivlt : n / b < b ^ k := by
        rw [Nat.div_lt_iff_lt_mul (by omega)]
        calc n < b ^ (k + 1) := hn
          _ = b ^ k * b := by rw [pow_succ]
      have := ih (n / b) hdivlt
      omega

theorem digitsLE_length_lower (b : Nat) (hb : 2 ≤ b) :
    ∀ (k n : Nat), b ^ k ≤ n → k < (digitsLE b n).length := by
  intro k
  induction k with
  | zero =>
    intro n hn
    simp only [pow_zero] at hn
    rw [digitsLE_step b hb n (by omega)]
    simp
  | succ k ih =>
    intro n hn
    have hnpos : n ≠ 0 := by
      intro h0
      rw [h0] at hn
      have : 0 < b ^ (k + 1) := pow_pos (by omega) _
      omega
    rw [digitsLE_step b hb n hnpos]
    simp only [List.length_cons]
    have hdivge : b ^ k ≤ n / b := by
      rw [Nat.le_div_iff_mul_le (by omega)]
      calc b ^ k * b = b ^ (k + 1) := (pow_succ b k).symm
        _ ≤ n := hn
    have := ih (n / b) hdivge
    omega

theorem digitsLE_div_pow (b : Nat) (hb : 2 ≤ b) (n : Nat) :
    ∀ k, digitsLE b (n / b ^ k) = (digitsLE b n).drop k := by
  intro k
  induction k generalizing n with
  | zero => simp
  | succ k ih =>
    have hstep : digitsLE b (n / b) = (digitsLE b n).tail := by
      cases Nat.eq_zero_or_pos n with
      | inl h0 => rw [h0, Nat.zero_div]; rfl
      | inr hpos => rw [digitsLE_step b hb n (by omega)]; rfl
    calc digitsLE b (n / b ^ (k + 1))
        = digitsLE b (n / b / b ^ k) := by
          rw [Nat.div_div_eq_div_mul, ← pow_succ']
      _ = (digitsLE b (n / b)).drop k := ih (n / b)
      _ = ((digitsLE b n).tail).drop k := by rw [hstep]
      _ = (digitsLE b n).drop (k + 1) := by
          rw [← List.drop_one, List.drop_drop]
          congr 1
          omega

theorem digitsLE_lt (b : Nat) (hb : 2 ≤ b) :
    ∀ n, ∀ d ∈ digitsLE b n, d < b := by
  intro n
  induction n using Nat.strong_induction_on with
  | _ n ih =>
    intro d hd
    cases Nat.eq_zero_or_pos n with
    | inl h0 => rw [h0] at hd; simp [digitsLE, natDigitsLE] at hd
    | inr hpos =>
      rw [digitsLE_step b hb n (by omega)] at hd
      rcases List.mem_cons.mp hd with h | h
      · rw [h]; exact Nat.mod_lt n (by omega)
      · exact ih (n / b) (Nat.div_lt_self hpos (by omega)) d h

theorem parseBE_append_digit (b : Nat) (ds : List Nat) (d : Nat) :
    parseBE b (ds ++ [d]) = parseBE b ds * b + d := by
  unfold parseBE
  rw [List.foldl_append]
  rfl

theorem parseBE_shift (b : Nat) : ∀ (l : List Nat) (a : Nat),
    l.foldl (fun a d => a * b + d) a = a * b ^ l.length + parseBE b l := by
  intro l
  induction l with
  | nil => intro a; simp [parseBE]
  | cons d rest ih =>
    intro a
    show rest.foldl (fun a d => a * b + d) (a * b + d) = a * b ^ (rest.length + 1) + parseBE b (d :: rest)
    rw [ih (a * b + d)]
    have : parseBE b (d :: rest) = rest.foldl (fun a d => a * b + d) d := by
      unfold parseBE
      simp [List.foldl_cons]
    rw [this, ih d]
    ring

theorem parseBE_lt (b : Nat) (_hb : 2 ≤ b) :
    ∀ bs, (∀ x ∈ bs, x < b) → parseBE b bs < b ^ bs.length := by
  have key : ∀ (l : List Nat) (a : Nat), (∀ x ∈ l, x < b) →
      l.foldl (fun a d => a * b + d) a < (a + 1) * b ^ l.length := by
    intro l
    induction l with
    | nil => intro a _; simp
    | cons d rest ih =>
      intro a hlt
      show rest.foldl (fun a d => a * b + d) (a * b + d) < (a + 1) * b ^ (rest.length + 1)
      calc rest.foldl (fun a d => a * b + d) (a * b + d)
          < (a * b + d + 1) * b ^ rest.length := ih _ (fun x hx => hlt x (by simp [hx]))
        _ ≤ ((a + 1) * b) * b ^ rest.length := by
            have hd : d < b := hlt d (by simp)
            have : a * b + d + 1 ≤ (a + 1) * b := by nlinarith
            exact Nat.mul_le_mul_right _ this
        _ = (a + 1) * b ^ (rest.length + 1) := by ring
  intro bs hlt
  have := key bs 0 hlt
  simpa [parseBE] using this

theorem parseBE_head_pos (b : Nat) (_hb : 2 ≤ b) (h : Nat) (rest : List Nat)
    (hh : h ≠ 0) : 0 < parseBE b (h :: rest) := by
  have : parseBE b (h :: rest) = rest.foldl (fun a d => a * b + d) h := by
    unfold parseBE
    simp [List.foldl_cons]
  rw [this, parseBE_shift]
  have : 0 < h * b ^ rest.length := Nat.mul_pos (by omega) (pow_pos (by omega) _)
  omega

theorem digitsLE_parseBE (b : Nat) (hb : 2 ≤ b) :
    ∀ (bs : List Nat), (∀ x ∈ bs, x < b) → (∀ x ∈ bs.take 1, x ≠ 0) →
      (digitsLE b (parseBE b bs)).reverse = bs := by
  intro bs
  induction bs using List.reverseRecOn with
  | nil => intro _ _; rfl
  | append_singleton ys y ih =>
    intro hlt hh
    rw [parseBE_append_digit]
    cases ys with
    | nil =>
      have hy : y ≠ 0 := by simp at hh; exact hh
      have hylt : y < b := hlt y (by simp)
      simp only [parseBE, List.foldl_nil, Nat.zero_mul, Nat.zero_add]
      rw [digitsLE_step b hb y hy, Nat.mod_eq_of_lt hylt, Nat.div_eq_of_lt hylt]
      rfl
    | cons h t =>
      have hpos : 0 < parseBE b (h :: t) := by
        refine parseBE_head_pos b hb h t ?_
        have := hh h (by simp)
        exact this
      have hylt : y < b := hlt y (by simp)
      have hN : parseBE b (h :: t) * b + y ≠ 0 := by positivity
      rw [digitsLE_step b hb _ hN]
      have hmod : (parseBE b (h :: t) * b + y) % b = y := by
        rw [Nat.mul_comm, Nat.mul_add_mod]
        exact Nat.mod_eq_of_lt hylt
      have hdiv : (parseBE b (h :: t) * b + y) / b = parseBE b (h :: t) := by
        rw [Nat.mul_comm, Nat.mul_add_div (by omega), Nat.div_eq_of_lt hylt]
        omega
      rw [hmod, hdiv]
      simp only [List.reverse_cons]
      have hsub : ∀ x ∈ h :: t, x ∈ h :: t ++ [y] := by
        intro x hx
        rcases List.mem_cons.mp hx with h1 | h1 <;> simp [h1]
      rw [ih (fun x hx => hlt x (hsub x hx)) (by
        intro x hx
        exact hh x (by simpa using hx))]

theorem parseBE_reverse (b : Nat) (ds : List Nat) : parseBE b ds.reverse = parseLE b ds := by
  unfold parseBE parseLE
  rw [List.foldl_reverse]
  induction ds with
  | nil => rfl
  | cons d rest ih =>
    simp only [List.foldr_cons]
    rw [ih]
    ring

theorem parseBE_append (b : Nat) (xs ys : List Nat) :
    parseBE b (xs ++ ys) = parseBE b xs * b ^ ys.length + parseBE b ys := by
  show (xs ++ ys).foldl (fun a d => a * b + d) 0 = _
  rw [List.foldl_append]
  exact parseBE_shift b ys _

theorem b58_digit_char : ∀ d, d < 58 → b58Digit (b58Char d) = some d := by decide

theorem parse58_map_b58Char : ∀ (ds : List Nat) (a : Nat), (∀ d ∈ ds, d < 58) →
    (ds.map b58Char).foldl (fun a c => a * 58 + (b58Digit c).getD 0) a =
    ds.foldl (fun a d => a * 58 + d) a := by
  intro ds
  induction ds with
  | nil => intro a _; rfl
  | cons d rest ih =>
    intro a hlt
    simp only [List.map_cons, List.foldl_cons]
    rw [b58_digit_char d (hlt d (by simp))]
    simp only [Option.getD_some]
    exact ih _ (fun x hx => hlt x (by simp [hx]))

theorem digits58_shape (dbytes : List Nat) (hlen : dbytes.length = 32)
    (hlt : ∀ x ∈ dbytes, x < 256) :
    ∃ mid, digitsLE 58 (parseBE 256 (0x12 :: 0x20 :: dbytes)) = mid ++ [44, 23] ∧
      mid.length = 44 := by
  have hN : parseBE 256 (0x12 :: 0x20 :: dbytes) =
      4640 * 256 ^ 32 + parseBE 256 dbytes := by
    have : (0x12 :: 0x20 :: dbytes) = [0x12, 0x20] ++ dbytes := rfl
    rw [this, parseBE_append, hlen]
    norm_num [parseBE]
  have hdlt : parseBE 256 dbytes < 256 ^ 32 := by
    have := parseBE_lt 256 (by omega) dbytes hlt
    rwa [hlen] at this
  set N := parseBE 256 (0x12 :: 0x20 :: dbytes) with hNdef
  have hlow : 58 ^ 45 ≤ N := by
    rw [hN]
    have : (58 : Nat) ^ 45 ≤ 4640 * 256 ^ 32 := by norm_num
    omega
  have hhigh : N < 58 ^ 46 := by
    rw [hN]
    have : 4640 * 256 ^ 32 + 256 ^ 32 ≤ 58 ^ 46 := by norm_num
    omega
  have hlen46 : (digitsLE 58 N).length = 46 := by
    have h1 := digitsLE_length_le 58 (by omega) 46 N hhigh
    have h2 := digitsLE_length_lower 58 (by omega) 45 N hlow
    omega
  have hdiv : N / 58 ^ 44 = 1378 := by
    have h1 : 1378 ≤ N / 58 ^ 44 := by
      rw [Nat.le_div_iff_mul_le (pow_pos (by omega) _)]
      rw [hN]
      have : 1378 * 58 ^ 44 ≤ 4640 * 256 ^ 32 := by norm_num
      omega
    have h2 : N / 58 ^ 44 < 1379 := by
      rw [Nat.div_lt_iff_lt_mul (pow_pos (by omega) _)]
      rw [hN]
      have : 4640 * 256 ^ 32 + 256 ^ 32 ≤ 1379 * 58 ^ 44 := by norm_num
      omega
    omega
  have hdrop : (digitsLE 58 N).drop 44 = [44, 23] := by
    rw [← digitsLE_div_pow 58 (by omega) N 44, hdiv]
    decide
  refine ⟨(digitsLE 58 N).take 44, ?_, ?_⟩
  · rw [← hdrop, List.take_append_drop]
  · rw [List.length_take, hlen46]
    omega

theorem hexVal_lt (c : Char) : hexVal c < 16 := by
  unfold hexVal
  split_ifs <;> omega

theorem hexDigitChar_hexVal (c : Char) (h : isHexLower c = true) :
    hexDigitChar (hexVal c) = c := by
  unfold isHexLower at h
  rw [decide_eq_true_iff] at h
  rcases h with ⟨h1, h2⟩ | ⟨h1, h2⟩
  · have hv : hexVal c = c.toNat - 48 := by
      unfold hexVal
      rw [if_pos ⟨h1, h2⟩]
    rw [hv]
    unfold hexDigitChar
    rw [if_pos (by omega)]
    have he : 48 + (c.toNat - 48) = c.toNat := by omega
    rw [he]
    exact Char.ofNat_toNat c
  · have hv : hexVal c = c.toNat - 87 := by
      unfold hexVal
      rw [if_neg (by omega), if_pos ⟨h1, h2⟩]
    rw [hv]
    unfold hexDigitChar
    rw [if_neg (by omega)]
    have he : 87 + (c.toNat - 87) = c.toNat := by omega
    rw [he]
    exact Char.ofNat_toNat c

theorem byteToHex_pair (c1 c2 : Char) (h1 : isHexLower c1 = true)
    (h2 : isHexLower c2 = true) :
    byteToHexChars (hexVal c1 * 16 + hexVal c2) = [c1, c2] := by
  unfold byteToHexChars
  have hv2 : hexVal c2 < 16 := hexVal_lt c2
  have hdiv : (hexVal c1 * 16 + hexVal c2) / 16 = hexVal c1 := by omega
  have hmod : (hexVal c1 * 16 + hexVal c2) % 16 = hexVal c2 := by omega
  rw [hdiv, hmod, hexDigitChar_hexVal c1 h1, hexDigitChar_hexVal c2 h2]

theorem hexPairsToBytes_length : ∀ (m : Nat) (cs : List Char), cs.length = 2 * m →
    (hexPairsToBytes cs).length = m := by
  intro m
  induction m with
  | zero =>
    intro cs hl
    have hcs : cs = [] := List.length_eq_zero.mp (by omega)
    rw [hcs]
    rfl
  | succ m ih =>
    intro cs hl
    cases cs with
    | nil => simp at hl
    | cons c1 cs' =>
      cases cs' with
      | nil => simp at hl; omega
      | cons c2 rest =>
        show (hexPairsToBytes rest).length + 1 = m + 1
        rw [ih rest (by simp at hl; omega)]

theorem hexPairsToBytes_lt : ∀ (cs : List Char), ∀ x ∈ hexPairsToBytes cs, x < 256
  | [] => by intro x hx; simp [hexPairsToBytes] at hx
  | [c] => by intro x hx; simp [hexPairsToBytes] at hx
  | c1 :: c2 :: rest => by
    intro x hx
    rcases List.mem_cons.mp hx with h | h
    · have hv1 := hexVal_lt c1
      have hv2 := hexVal_lt c2
      omega
    · exact hexPairsToBytes_lt rest x h

theorem bytesToHex_hexPairs : ∀ (m : Nat) (cs : List Char), cs.length = 2 * m →
    cs.all isHexLower = true → bytesToHex (hexPairsToBytes cs) = cs := by
  intro m
  induction m with
  | zero =>
    intro cs hl _
    have hcs : cs = [] := List.length_eq_zero.mp (by omega)
    rw [hcs]
    rfl
  | succ m ih =>
    intro cs hl hall
    cases cs with
    | nil => simp at hl
    | cons c1 cs' =>
      cases cs' with
      | nil => simp at hl; omega
      | cons c2 rest =>
        simp only [List.all_cons, Bool.and_eq_true] at hall
        show byteToHexChars (hexVal c1 * 16 + hexVal c2) ++ bytesToHex (hexPairsToBytes rest) =
          c1 :: c2 :: rest
        rw [byteToHex_pair c1 c2 hall.1 hall.2.1, ih rest (by simp at hl; omega) hall.2.2]
        rfl

theorem digest_roundtrip (s : String) (hs : isHexDigest s = true) :
    (digest32ToCidV0 s).bind cidV0ToDigest32 = .ok s := by
  have hs' := hs
  unfold isHexDigest at hs'
  split at hs'
  case h_2 => simp at hs'
  case h_1 rest heq =>
    rw [Bool.and_eq_true, beq_iff_eq] at hs'
    obtain ⟨hlen64, hallhex⟩ := hs'
    have hdrop2 : s.data.drop 2 = rest := by rw [heq]; rfl
    have hdblen : (hexPairsToBytes rest).length = 32 :=
      hexPairsToBytes_length 32 rest (by omega)
    have hdblt := hexPairsToBytes_lt rest
    have henc : digest32ToCidV0 s =
        .ok (baseEncode (0x12 :: 0x20 :: hexPairsToBytes rest)) := by
      unfold digest32ToCidV0
      rw [hs, hdrop2]
      rfl
    obtain ⟨mid, hmid, hmidlen⟩ := digits58_shape (hexPairsToBytes rest) hdblen hdblt
    have hrev : (digitsLE 58 (parseBE 256 (0x12 :: 0x20 :: hexPairsToBytes rest))).reverse =
        23 :: 44 :: mid.reverse := by
      rw [hmid, List.reverse_append]
      rfl
    have hdata1 : (baseEncode (0x12 :: 0x20 :: hexPairsToBytes rest)).data =
        ((digitsLE 58 (parseBE 256 (0x12 :: 0x20 :: hexPairsToBytes rest))).reverse).map b58Char := by
      unfold baseEncode
      rfl
    have hdata2 : (baseEncode (0x12 :: 0x20 :: hexPairsToBytes rest)).data =
        'Q' :: 'm' :: mid.reverse.map b58Char := by
      rw [hdata1, hrev]
      rfl
    have hlen46 : (baseEncode (0x12 :: 0x20 :: hexPairsToBytes rest)).length = 46 := by
      show (baseEncode (0x12 :: 0x20 :: hexPairsToBytes rest)).data.length = 46
      rw [hdata2]
      simp [hmidlen]
    have hcid : isCidV0 (baseEncode (0x12 :: 0x20 :: hexPairsToBytes rest)) = true := by
      unfold isCidV0
      rw [hlen46, hdata2]
      rfl
    have hvalid : (baseEncode (0x12 :: 0x20 :: hexPairsToBytes rest)).data.all
        (fun c => (b58Digit c).isSome) = true := by
      rw [hdata1, List.all_eq_true]
      intro c hc
      obtain ⟨d, hd, hcd⟩ := List.mem_map.mp hc
      have hd58 : d < 58 :=
        digitsLE_lt 58 (by omega) _ d (List.mem_reverse.mp hd)
      rw [← hcd, b58_digit_char d hd58]
      rfl
    have hones : countLeadingOnes (baseEncode (0x12 :: 0x20 :: hexPairsToBytes rest)).data = 0 := by
      rw [hdata2]
      rfl
    have hparse : (baseEncode (0x12 :: 0x20 :: hexPairsToBytes rest)).data.foldl
        (fun a c => a * 58 + (b58Digit c).getD 0) 0 =
        parseBE 256 (0x12 :: 0x20 :: hexPairsToBytes rest) := by
      rw [hdata1]
      rw [parse58_map_b58Char _ 0 (fun d hd =>
        digitsLE_lt 58 (by omega) _ d (List.mem_reverse.mp hd))]
      rw [show ∀ l : List Nat, l.foldl (fun a d => a * 58 + d) 0 = parseBE 58 l from fun l => rfl]
      rw [parseBE_reverse, parseLE_digitsLE 58 (by omega)]
    have hbytes : (digitsLE 256 (parseBE 256 (0x12 :: 0x20 :: hexPairsToBytes rest))).reverse =
        0x12 :: 0x20 :: hexPairsToBytes rest := by
      refine digitsLE_parseBE 256 (by omega) _ ?_ ?_
      · intro x hx
        rcases List.mem_cons.mp hx with h | hx2
        · omega
        · rcases List.mem_cons.mp hx2 with h | hx3
          · omega
          · exact hdblt x hx3
      · intro x hx
        have : x = 18 := by simpa using hx
        omega
    have hdec : baseDecode (baseEncode (0x12 :: 0x20 :: hexPairsToBytes rest)) =
        some (0x12 :: 0x20 :: hexPairsToBytes rest) := by
      unfold baseDecode
      rw [hvalid]
      simp only [if_true]
      rw [hones, hparse, hbytes]
      rfl
    have hhex : bytesToHex (hexPairsToBytes rest) = rest :=
      bytesToHex_hexPairs 32 rest (by omega) hallhex
    have hfinal : cidV0ToDigest32 (baseEncode (0x12 :: 0x20 :: hexPairsToBytes rest)) = .ok s := by
      unfold cidV0ToDigest32
      rw [hcid, hdec]
      have hcheck : ((0x12 :: 0x20 :: hexPairsToBytes rest).headD 0 == 0x12 &&
          ((0x12 :: 0x20 :: hexPairsToBytes rest).drop 1).headD 0 == 0x20 &&
          (0x12 :: 0x20 :: hexPairsToBytes rest).length == 34) = true := by
        simp [hdblen]
      simp only [Bool.not_true, Bool.false_eq_true, if_false]
      rw [hcheck]
      simp only [if_true]
      have hdrop : (0x12 :: 0x20 :: hexPairsToBytes rest).drop 2 = hexPairsToBytes rest := rfl
      rw [hdrop, hhex]
      rw [← heq]
    rw [henc]
    show cidV0ToDigest32 (baseEncode (0x12 :: 0x20 :: hexPairsToBytes rest)) = .ok s
    exact hfinal

theorem digest32ToCidV0_rejects (s : String) (h : isHexDigest s = false) :
    digest32ToCidV0 s = .error "Invalid digest32" := by
  unfold digest32ToCidV0
  rw [h]
  rfl

theorem cidV0ToDigest32_rejects (s : String) (h : wellFormedCidV0 s = false) :
    ∃ e, cidV0ToDigest32 s = .error e := by
  unfold wellFormedCidV0 at h
  unfold cidV0ToDigest32
  cases hc : isCidV0 s with
  | false => exact ⟨"Not CIDv0", rfl⟩
  | true =>
    simp only [Bool.not_true, Bool.false_eq_true, if_false]
    cases hd : baseDecode s with
    | none => exact ⟨"Invalid base58 character", rfl⟩
    | some bytes =>
      rw [hd] at h
      dsimp only at h
      rw [hc] at h
      simp only [Bool.true_and] at h
      dsimp only
      rw [h]
      exact ⟨"Unexpected multihash layout", rfl⟩

/-- C7: the address/digest helper pair round-trips: converting a valid
32-byte digest string (0x-prefixed, 64 lower-case hex characters) to a
CIDv0 with `digest32ToCidV0` and back with `cidV0ToDigest32` yields the
original string; `digest32ToCidV0` rejects any non-digest string with an
error, and `cidV0ToDigest32` rejects with an error any string that is not
a well-formed CIDv0 with the expected `0x12 0x20 || digest[32]` multihash
layout. -/
theorem C7_address_digest_roundtrip :
    (∀ s, isHexDigest s = true → (digest32ToCidV0 s).bind cidV0ToDigest32 = .ok s) ∧
    (∀ s, isHexDigest s = false → digest32ToCidV0 s = .error "Invalid digest32") ∧
    (∀ s, wellFormedCidV0 s = false → ∃ e, cidV0ToDigest32 s = .error e) :=
  ⟨digest_roundtrip, digest32ToCidV0_rejects, cidV0ToDigest32_rejects⟩

/-- Witness for C7: a concrete digest round-trips; concrete malformed
inputs are rejected. -/
theorem C7_address_digest_roundtrip_witness :
    (isHexDigest cDigest = true ∧
     (digest32ToCidV0 cDigest).bind cidV0ToDigest32 = .ok cDigest) ∧
    (isHexDigest "zz" = false ∧
     digest32ToCidV0 "zz" = .error "Invalid digest32") ∧
    (wellFormedCidV0 "Qm" = false ∧
     ∃ e, cidV0ToDigest32 "Qm" = .error e) :=
  ⟨⟨by decide, C7_address_digest_roundtrip.1 cDigest (by decide)⟩,
   ⟨by decide, C7_address_digest_roundtrip.2.1 "zz" (by decide)⟩,
   ⟨by decide, C7_address_digest_roundtrip.2.2 "Qm" (by decide)⟩⟩
